import Mathlib

/-!
Verification of the weave dependency-injection container (src/weave.go).

The Go code is shallowly embedded as follows.

* A service instance is a pointer `*R` to a pre-allocated output slot
  (`entry.instance`, created by `new(R)` in `Provide`).  Each registered
  name owns exactly one slot and the slot pointer is never replaced (the
  reflection copy in `build` writes through the pointer), so a pointer is
  identified with the service name it belongs to.  The slot contents are
  modelled by `Val`: a scalar payload plus the list of pointers (names)
  the factory captured from its dependencies.
* A factory (`func(*T) any`) is an arbitrary Go function that may call
  `GetService` (the container's current resolver) any number of times and
  finally returns a value or `nil`.  It is modelled by the inductive
  `Builder`: a tree of resolver requests ended by `ret`;  `ret none`
  models returning `nil`.  The shared context `*T` is opaque to the
  engine, so builders are modelled as already closed over it.
* `getServiceFunc` is a mutable field holding either the passive resolver
  installed by `New` or the edge-recording resolver installed by `build`
  for a given entry; it is modelled by the tag `Resolver`.
* The entries live in the repository's generic `Map[K comparable, V any]`
  (src/unnamed/part_000, after the README): a `sync.RWMutex` around a
  builtin `data map[K]V`, with `Set` assigning `m.data[key] = value`,
  `Get` returning `value, ok`, `Contains` testing the `ok`, and `Range`
  iterating `for key, value := range m.data`.  The embedding is
  single-threaded, so the mutex is dropped and `data` becomes an
  association list with unique keys: `mapGet` embeds `Get` (first
  matching key; keys are unique because lists are only built by
  `mapSet`), `mapSet` embeds `Set` (overwrite in place, insert at the
  tail), and `Range` walks the list.  Go leaves the builtin map's
  iteration order unspecified (the spec likewise has `Build` iterate "in
  unspecified order"); in the model that order is the list order, i.e. a
  component of the state.  Theorems quantified over all states therefore
  cover every iteration order, while a theorem about a concrete state
  pins one admissible order — where order matters, both orders of the
  two-entry scenarios are treated (`cyc2`/`cyc2swap`,
  `exFail`/`exFailSwap`).  Entry fields are mutated through the stored
  `*entry` pointers without touching the map structure (`mapUpdate`).
* `events` is an observation log (not a Go field): every reflection copy
  into a slot and every ready-callback run is recorded, so that theorems
  can speak about which factory results reached which slot and about
  callbacks being invoked.  No definition reads `events`.
* Go string comparison (`<` of `sort.Strings` and of `normalizeCycle`)
  is lexicographic; it is embedded by the kernel-computable `strLt` /
  `strLe` on the character lists of the strings.
* Recursion in `build`, `detectCircularDependency` and
  `findAllCyclesFromNode` is general recursion in Go; it is embedded
  with an explicit fuel parameter.  Running out of fuel yields an error
  (for `build`) or an empty result (for the graph searches).
-/

/-! ## Lexicographic string order -/

/-- Lexicographic strict order on character lists, comparing code points,
mirroring Go's `<` on strings. -/
def lexLt : List Char → List Char → Bool
  | [], [] => false
  | [], _ :: _ => true
  | _ :: _, [] => false
  | c :: cs, d :: ds =>
    if c.toNat < d.toNat then true
    else if d.toNat < c.toNat then false
    else lexLt cs ds

/-- Strict lexicographic order on strings. -/
def strLt (a b : String) : Bool := lexLt a.data b.data

/-- Lexicographic `≤` on strings, as the negation of the reverse strict order. -/
def strLe (a b : String) : Bool := !(strLt b a)

/-- Sorting a list of service names, modelling Go's `sort.Strings`. -/
def sortStrings (l : List String) : List String :=
  l.insertionSort (fun a b => strLe a b = true)

/-! ## Association-list model of the generic Map collaborator -/

/-- `Map.Get` (src/unnamed/part_000): `value, ok := m.data[key]` on the
builtin map, embedded as first-matching-key search of the association
list; the `none`/`some` of the result is Go's `ok`.  Keys are unique
because entry lists are only ever extended through `mapSet`. -/
def mapGet {α : Type} : List (String × α) → String → Option α
  | [], _ => none
  | (k', v) :: rest, k => if k' = k then some v else mapGet rest k

/-- `Map.Set` (src/unnamed/part_000): `m.data[key] = value` — overwrite
the value of an existing key, or insert a new binding.  The model keeps
an overwritten key in place and puts a new key at the tail; the list
order stands for the builtin map's Go-unspecified iteration order (see
the header), so this tail position is one admissible choice and
order-sensitive facts are stated for concrete states of each relevant
order. -/
def mapSet {α : Type} : List (String × α) → String → α → List (String × α)
  | [], k, v => [(k, v)]
  | (k', v') :: rest, k, v =>
    if k' = k then (k', v) :: rest else (k', v') :: mapSet rest k v

/-- Mutating the value stored under a key through its pointer (Go entries
are `*entry` pointers, so field assignments update the map's value in
place without touching the key structure). -/
def mapUpdate {α : Type} : List (String × α) → String → (α → α) →
    List (String × α)
  | [], _, _ => []
  | (k', v) :: rest, k, f =>
    (if k' = k then (k', f v) else (k', v)) :: mapUpdate rest k f

/-- `Map.Contains` (src/unnamed/part_000): the `ok` of a lookup. -/
def containsKey {α : Type} (m : List (String × α)) (k : String) : Bool :=
  (mapGet m k).isSome

/-! ## Data model -/

/-- Contents of a service's output slot: a scalar payload plus the
pointers (identified with service names) that the factory captured from
its dependencies.  `Provide` pre-allocates the slot zero-valued. -/
structure Val where
  tag : Nat
  refs : List String
deriving DecidableEq, Repr

/-- The zero value a freshly allocated output slot holds (`new(R)`). -/
def zeroVal : Val := ⟨0, []⟩

/-- Observation log entries: `copy n v` records the reflection copy of a
factory result `v` into the output slot of service `n` (weave.go lines
133-134); `ready` records one ready-callback invocation. -/
inductive Event where
  | copy : String → Val → Event
  | ready : Event
deriving DecidableEq, Repr

/-- A factory `func(*T) any`: a tree of `GetService` requests through the
container's current resolver, ended by returning a value (`ret (some v)`)
or `nil` (`ret none`).  The continuation receives the pointer returned by
the resolver (`some` of the dependency's slot) or `none` on a resolver
error, which is how `TryMake`-style factories observe failures. -/
inductive Builder where
  | ret : Option Val → Builder
  | get : String → (Option String → Builder) → Builder

/-- Per-service bookkeeping record (`entry[T]` in weave.go).  `inst` is
the contents of the pre-allocated output slot (`instance` points to it
and never changes identity), `builder` is the factory (`none` after
`Compact` sets it to nil), `dependsOn` the recorded dependency edges,
`built` the build state. -/
structure Entry where
  inst : Val
  builder : Option Builder
  dependsOn : List String
  built : Bool

/-- The container's `getServiceFunc` field: either the passive resolver
installed by `New`, or the edge-recording resolver `build` installs for
the entry named `owner`. -/
inductive Resolver where
  | passive
  | recording (owner : String)
deriving DecidableEq, Repr

/-- The container (`Weave[T]`).  The context is opaque to the engine and
omitted (builders are closed over it); `ready` stores the number of
registered ready callbacks; `events` is the observation log described at
the top of the file. -/
structure Weave where
  entries : List (String × Entry)
  ready : Nat
  built : Bool
  resolver : Resolver
  events : List Event

/-- `New[T]()`: empty container with the passive resolver installed. -/
def New : Weave :=
  { entries := [], ready := 0, built := false,
    resolver := Resolver.passive, events := [] }

/-- `assign`: register a factory under a name with a fresh zero-valued
output slot, no recorded edges, unbuilt state, and clear the container's
built flag. -/
def assign (s : Weave) (name : String) (b : Builder) : Weave :=
  { s with
    entries := mapSet s.entries name
      { inst := zeroVal, builder := some b, dependsOn := [], built := false },
    built := false }

/-- `Provide`: allocates the zero placeholder and registers the factory
(the generic wrapper adds nothing observable at this level). -/
def Provide (s : Weave) (name : String) (b : Builder) : Weave :=
  assign s name b

/-- `Ready(fn)`: append a ready callback. -/
def Ready (s : Weave) : Weave := { s with ready := s.ready + 1 }

def notFoundMsg (name : String) : String :=
  "service [" ++ name ++ "] not found"

def buildFailedMsg (name : String) : String :=
  "service [" ++ name ++ "] build failed"

/-- Mark the build state of entry `n` (weave.go lines 125 and 128). -/
def markBuilt (s : Weave) (n : String) (b : Bool) : Weave :=
  { s with entries := mapUpdate s.entries n (fun e => { e with built := b }) }

/-- The reflection copy of a produced value into the output slot of `n`
(weave.go lines 133-134), recorded in the observation log. -/
def copyInst (s : Weave) (n : String) (v : Val) : Weave :=
  { s with
    entries := mapUpdate s.entries n (fun e => { e with inst := v }),
    events := s.events ++ [Event.copy n v] }

/-- Recording the dependency edge `owner → dep` (weave.go line 116). -/
def appendDep (s : Weave) (owner dep : String) : Weave :=
  { s with
    entries :=
      mapUpdate s.entries owner
        (fun e => { e with dependsOn := e.dependsOn ++ [dep] }) }

/-- One `getServiceFunc` call, parameterized by the recursive build
procedure `bld` (weave.go lines 42-47 for the passive resolver and
111-123 for the recording one).  The result is the requested entry's
slot pointer (identified with its name), or `none` for the error case. -/
def resolveWith (bld : Weave → String → Option String × Weave)
    (s : Weave) (dep : String) : Option String × Weave :=
  match s.resolver with
  | Resolver.passive =>
    match mapGet s.entries dep with
    | some _ => (some dep, s)
    | none => (none, s)
  | Resolver.recording owner =>
    match mapGet s.entries dep with
    | none => (none, s)
    | some e =>
      let s1 := appendDep s owner dep
      if e.built then (some dep, s1)
      else
        match bld s1 dep with
        | (none, s2) => (some dep, s2)
        | (some _, s2) => (none, s2)

/-- Run a factory body: every `get` goes through the resolver currently
installed in the state (weave.go line 126 runs the factory, which calls
`s.getServiceFunc` through `GetService`). -/
def runBWith (bld : Weave → String → Option String × Weave) :
    Builder → Weave → Option Val × Weave
  | Builder.ret v, s => (v, s)
  | Builder.get dep k, s =>
    runBWith bld (k (resolveWith bld s dep).1) (resolveWith bld s dep).2

/-- The recursive build procedure (weave.go lines 104-138), with fuel for
the general recursion.  Faithful points: the entry is marked built before
the factory runs; on a nil factory result the state is rolled back to
unbuilt and the saved resolver is NOT restored; the resolver is restored
only on the success path (line 136).  Go's local `originalFunc` is the
resolver at entry, inlined here as `s.resolver`.  A nil `builder` field
(only possible after `Compact`) panics in Go at the call site; it is
embedded as the same failure exit as a nil factory result. -/
def build : Nat → Weave → String → Option String × Weave
  | 0, s, _ => (some "out of fuel", s)
  | fuel + 1, s, name =>
    match mapGet s.entries name with
    | none => (some (notFoundMsg name), s)
    | some e =>
      if e.built then (none, s)
      else
        match e.builder with
        | none =>
          (some (buildFailedMsg name),
            markBuilt
              (markBuilt { s with resolver := Resolver.recording name }
                name true)
              name false)
        | some b =>
          match runBWith (fun t m => build fuel t m) b
              (markBuilt { s with resolver := Resolver.recording name }
                name true) with
          | (none, s3) => (some (buildFailedMsg name), markBuilt s3 name false)
          | (some v, s3) =>
            (none, { copyInst s3 name v with resolver := s.resolver })

/-- The `entries.Range` loop inside `Build` (weave.go lines 90-93): build
each entry, stopping at the first failure.  `Map.Range` visits the
builtin map in Go-unspecified order; the model walks the keys in the
association-list order of the state (see the header). -/
def buildLoop (fuel : Nat) : List String → Weave → Option String × Weave
  | [], s => (none, s)
  | n :: rest, s =>
    match build fuel s n with
    | (none, s') => buildLoop fuel rest s'
    | (some e, s') => (some e, s')

/-- `Build()` (weave.go lines 82-102): no-op on an already built
container; otherwise build every entry, abort on the first failure, and
on full success set the built flag and run the ready callbacks in order
(observed as `ready` events). -/
def Build (fuel : Nat) (s : Weave) : Option String × Weave :=
  if s.built then (none, s)
  else
    match buildLoop fuel (s.entries.map Prod.fst) s with
    | (some e, s') => (some e, s')
    | (none, s') =>
      (none,
        { s' with
          built := true,
          events := s'.events ++ List.replicate s'.ready Event.ready })

/-- `GetService` (weave.go lines 57-59): delegate to whichever resolver
is currently installed. -/
def GetService (fuel : Nat) (s : Weave) (name : String) :
    Option String × Weave :=
  resolveWith (fun t m => build fuel t m) s name

/-- `Compact()` (weave.go lines 590-603): panics (`none`) before a
successful build; otherwise drops the ready callbacks and every entry's
factory and recorded edges. -/
def Compact (s : Weave) : Option Weave :=
  if s.built then
    some { s with
      ready := 0,
      entries := s.entries.map
        (fun p => (p.1, { p.2 with builder := none, dependsOn := [] })) }
  else none

/-- `Extract()` (weave.go lines 607-625): panics (`none`) before a
successful build; otherwise snapshots the built entries' slot values
into a fresh registry (a new `Map`, embedded like the entry map: the
snapshot's list order is the model's stand-in for the Go-unspecified
`Range` order, and only key-based lookups of it are stated). -/
def Extract (s : Weave) : Option (List (String × Val)) :=
  if s.built then
    some (s.entries.filterMap
      (fun p => if p.2.built then some (p.1, p.2.inst) else none))
  else none

/-! ## Graph analyzer -/

/-- The derived dependency graph (weave.go lines 164-170). -/
structure DependencyGraph where
  Dependencies : List (String × List String)
  Dependents : List (String × List String)

/-- One step of the reverse-edge construction (weave.go lines 193-198):
ensure `dep` has a bucket, then append the depending service. -/
def addDependent (acc : List (String × List String)) (dep svc : String) :
    List (String × List String) :=
  if containsKey acc dep then mapUpdate acc dep (fun l => l ++ [svc])
  else acc ++ [(dep, [svc])]

/-- `GetDependencyGraph()` (weave.go lines 173-211): copy every entry's
recorded edges, initialize an empty dependents bucket per entry, invert
all forward edges, then sort — the Go sorting loop ranges over the keys
of `dependencies`, so a dependents bucket is sorted exactly when its key
is also a key of the forward map.  The two `entries.Range` walks and the
key loops follow the model's list order standing in for Go's unspecified
map order (see the header). -/
def GetDependencyGraph (s : Weave) : DependencyGraph :=
  { Dependencies := (s.entries.map (fun p => (p.1, p.2.dependsOn))).map
      (fun p => (p.1, sortStrings p.2)),
    Dependents :=
      ((s.entries.map (fun p => (p.1, p.2.dependsOn))).foldl
        (fun acc p =>
          p.2.foldl (fun acc2 dep => addDependent acc2 dep p.1) acc)
        (s.entries.map (fun p => (p.1, ([] : List String))))).map
      (fun p =>
        if containsKey (s.entries.map (fun q => (q.1, q.2.dependsOn))) p.1
        then (p.1, sortStrings p.2) else p) }

/-- Adjacency lookup `dependencies[node]` — a missing key reads as the
empty (nil) list in Go. -/
def lookupDeps (deps : List (String × List String)) (n : String) :
    List String :=
  (mapGet deps n).getD []

/-- The three shared mutable variables of `detectCircularDependency`
(weave.go lines 324-326). -/
structure DetectState where
  visited : List String
  visiting : List String
  path : List String

/-- The backward walk of weave.go lines 333-338 (reversed): collect
elements up to and including the first occurrence of `node`; if `node`
never occurs the whole walk is collected, exactly as the Go loop runs to
index 0 without breaking. -/
def takeUntilIncl : List String → String → List String
  | [], _ => []
  | x :: rest, node => if x = node then [x] else x :: takeUntilIncl rest node

/-- The `for _, dep := range dependencies[node]` loop of the detect DFS
(weave.go lines 349-353): run `f` on each dependency, returning at the
first discovered cycle. -/
def dfsGoWith
    (f : String → DetectState → Option (List String) × DetectState) :
    List String → DetectState → Option (List String) × DetectState
  | [], st => (none, st)
  | d :: rest, st =>
    match f d st with
    | (some c, st') => (some c, st')
    | (none, st') => dfsGoWith f rest st'

/-- The inner `dfs` closure of `detectCircularDependency` (weave.go
lines 328-360), fuelled. -/
def dfsDetect :
    Nat → List (String × List String) → String → DetectState →
      Option (List String) × DetectState
  | 0, _, _, st => (none, st)
  | fuel + 1, deps, node, st =>
    if node ∈ st.visiting then
      (some (node :: takeUntilIncl st.path.reverse node), st)
    else if node ∈ st.visited then (none, st)
    else
      let st1 : DetectState :=
        { visited := st.visited, visiting := node :: st.visiting,
          path := st.path ++ [node] }
      match dfsGoWith (fun d t => dfsDetect fuel deps d t)
          (lookupDeps deps node) st1 with
      | (some c, st2) => (some c, st2)
      | (none, st2) =>
        (none,
          { visited := node :: st2.visited,
            visiting := st2.visiting.erase node,
            path := st2.path.dropLast })

/-- The root loop of `detectCircularDependency` (weave.go lines
362-368): try every unvisited key, sharing the visited set. -/
def detectRoots (fuel : Nat) (deps : List (String × List String)) :
    List String → DetectState → Option (List String) × DetectState
  | [], st => (none, st)
  | n :: rest, st =>
    if n ∈ st.visited then detectRoots fuel deps rest st
    else
      match dfsDetect fuel deps n st with
      | (some c, st') => (some c, st')
      | (none, st') => detectRoots fuel deps rest st'

/-- `detectCircularDependency` (weave.go lines 323-371). -/
def detectCircularDependency (fuel : Nat)
    (deps : List (String × List String)) : Bool × List String :=
  match detectRoots fuel deps (deps.map Prod.fst) ⟨[], [], []⟩ with
  | (some c, _) => (true, c)
  | (none, _) => (false, [])

/-- `HasCircularDependency` (weave.go lines 214-217). -/
def HasCircularDependency (fuel : Nat) (s : Weave) : Bool × List String :=
  detectCircularDependency fuel (GetDependencyGraph s).Dependencies

/-- The forward scan of weave.go lines 242-248: the suffix of `path`
starting at the first occurrence of `node`, or `[]` when absent
(`cycleStart == -1`). -/
def dropBefore : List String → String → List String
  | [], _ => []
  | x :: rest, node => if x = node then x :: rest else dropBefore rest node

/-- Cycle construction of weave.go lines 240-255: on re-encountering an
in-progress node, emit `path[cycleStart:] ++ [node]` if the node occurs
on the path, else nothing. -/
def cycleFrom (path : List String) (node : String) : List (List String) :=
  match dropBefore path node with
  | [] => []
  | x :: rest => [(x :: rest) ++ [node]]

/-- The dependency loop of `findAllCyclesFromNode` (weave.go lines
265-268): visit every dependency, accumulating cycles and threading the
shared visited/visiting maps; the by-value `path` is the same for every
sibling. -/
def findGoWith
    (f : String → List String → List String → List String →
      List (List String) × List String × List String) :
    List String → List String → List String → List String →
      List (List String) × List String × List String
  | [], vd, vg, _ => ([], vd, vg)
  | d :: rest, vd, vg, path =>
    let r := f d vd vg path
    let r2 := findGoWith f rest r.2.1 r.2.2 path
    (r.1 ++ r2.1, r2.2.1, r2.2.2)

/-- `findAllCyclesFromNode` (weave.go lines 237-274), fuelled.  Returns
the discovered cycles together with the updated shared visited and
visiting sets. -/
def findAllCyclesFromNode :
    Nat → List (String × List String) → String → List String →
      List String → List String →
      List (List String) × List String × List String
  | 0, _, _, vd, vg, _ => ([], vd, vg)
  | fuel + 1, deps, node, vd, vg, path =>
    if node ∈ vg then (cycleFrom path node, vd, vg)
    else if node ∈ vd then ([], vd, vg)
    else
      let r := findGoWith (fun d a b p => findAllCyclesFromNode fuel deps d a b p)
        (lookupDeps deps node) vd (node :: vg) (path ++ [node])
      (r.1, node :: r.2.1, r.2.2.erase node)

/-- The first-minimum scan of `normalizeCycle` (weave.go lines 305-311):
`m` is the current minimum, `mi` its index, `i` the index of the next
element. -/
def minIdxAux : List String → String → Nat → Nat → Nat
  | [], _, mi, _ => mi
  | x :: rest, m, mi, i =>
    if strLt x m then minIdxAux rest x i (i + 1)
    else minIdxAux rest m mi (i + 1)

def minIdxOf : List String → Nat
  | [] => 0
  | x :: rest => minIdxAux rest x 0 1

/-- `normalizeCycle` (weave.go lines 300-320): rotate the cycle to begin
at the first occurrence of its lexicographically smallest element. -/
def normalizeCycle (cycle : List String) : List String :=
  if cycle.length ≤ 1 then cycle
  else
    (List.range cycle.length).map
      (fun i => cycle.getD ((minIdxOf cycle + i) % cycle.length) "")

def joinArrow (l : List String) : String := String.intercalate "->" l

/-- `deduplicateCycles` (weave.go lines 277-297): drop degenerate
cycles, normalize, and keep the first cycle per joined key. -/
def deduplicateCycles (cycles : List (List String)) : List (List String) :=
  (cycles.foldl
    (fun (acc : List (List String) × List String) cycle =>
      if cycle.length ≤ 1 then acc
      else
        let normalized := normalizeCycle cycle
        let key := joinArrow normalized
        if key ∈ acc.2 then acc
        else (acc.1 ++ [normalized], key :: acc.2))
    ([], [])).1

/-- `GetAllCircularDependencies` (weave.go lines 220-234): run the cycle
search from every key with fresh visited/visiting maps per start (the
outer `visited` map only ever contains start nodes), then deduplicate. -/
def GetAllCircularDependencies (fuel : Nat) (s : Weave) :
    List (List String) :=
  let deps := (GetDependencyGraph s).Dependencies
  let all := (deps.map Prod.fst).foldl
    (fun (acc : List (List String) × List String) node =>
      if node ∈ acc.2 then acc
      else
        let r := findAllCyclesFromNode fuel deps node [] [] []
        (acc.1 ++ r.1, node :: acc.2))
    ([], [])
  deduplicateCycles all.1


/-! ## Derived notions used by the statements -/

/-- Step function of `lastCopyVal`: a later copy event for `n`
supersedes earlier ones. -/
def copyStep (n : String) (acc : Option Val) : Event → Option Val
  | Event.copy m v => if m = n then some v else acc
  | Event.ready => acc

/-- The value most recently copied into the slot of `n` according to an
observation log (none if the log holds no copy for `n`). -/
def lastCopyVal (es : List Event) (n : String) : Option Val :=
  es.foldl (copyStep n) none

/-- The events appended between two states (meaningful whenever the
second state extends the first's log). -/
def evDiff (s s' : Weave) : List Event := s'.events.drop s.events.length

/-- The observable part of an entry for slot-tracking: slot contents and
build state. -/
def entrySnap : Option Entry → Option (Val × Bool) :=
  Option.map (fun e => (e.inst, e.built))

/-- Slot-tracking invariant between two states with log difference `d`:
keys are preserved; an entry that was built keeps its slot and state and
receives no copy; and an entry's final slot/state is unchanged if `d`
holds no copy for it, while the last copied value is exactly the final
slot contents (with the entry built) otherwise. -/
def TracksWith (s s' : Weave) (d : List Event) : Prop :=
  s'.events = s.events ++ d ∧
  ∀ n : String,
    ((mapGet s'.entries n).isSome = (mapGet s.entries n).isSome) ∧
    (∀ e, mapGet s.entries n = some e → e.built = true →
      entrySnap (mapGet s'.entries n) = some (e.inst, true) ∧
      lastCopyVal d n = none) ∧
    (match lastCopyVal d n with
     | none => entrySnap (mapGet s'.entries n) = entrySnap (mapGet s.entries n)
     | some v => ∃ e', mapGet s'.entries n = some e' ∧ e'.inst = v ∧
         e'.built = true)

def Tracks (s s' : Weave) : Prop := ∃ d, TracksWith s s' d

/-- Count of `x` in the adjacency list stored under `k` (empty when `k`
is absent), for the transpose statement. -/
def countLookup (m : List (String × List String)) (k x : String) : Nat :=
  ((mapGet m k).getD []).count x

/-- Every dependency recorded in an entry is itself a registered key —
true of every container state reachable through the API, since the
recording resolver checks existence before appending the edge. -/
def depsClosed (s : Weave) : Prop :=
  ∀ n e, mapGet s.entries n = some e → ∀ d ∈ e.dependsOn,
    containsKey s.entries d = true

/-- Shape of every raw cycle emitted by `findAllCyclesFromNode`: a
duplicate-free path closed by repeating its first node. -/
def ShapedCycle (c : List String) : Prop :=
  ∃ n t, c = n :: (t ++ [n]) ∧ (n :: t).Nodup

/-- Shape of the path reported by `detectCircularDependency`: nonempty,
length at least two, closed (first element equals last), and drawn from
the names mentioned by the graph. -/
def ClosedPath (names : List String) (c : List String) : Prop :=
  c ≠ [] ∧ 2 ≤ c.length ∧ c.head? = c.getLast? ∧ ∀ x ∈ c, x ∈ names

/-- All names a dependency map mentions: its keys and every recorded
dependency. -/
def graphNames (deps : List (String × List String)) : List String :=
  deps.foldr (fun p acc => p.1 :: (p.2 ++ acc)) []

/-! ## Concrete scenarios -/

/-- Factory of service `a` in the two-node cycle: requests `b` and
captures the returned pointer. -/
def bldA : Builder :=
  Builder.get "b" (fun r =>
    Builder.ret (some ⟨1, match r with | some p => [p] | none => []⟩))

/-- Factory of service `b` in the two-node cycle: requests `a` and
captures the returned pointer. -/
def bldB : Builder :=
  Builder.get "a" (fun r =>
    Builder.ret (some ⟨2, match r with | some p => [p] | none => []⟩))

/-- Two mutually dependent registrations `a ↔ b`. -/
def cyc2 : Weave := Provide (Provide New "a" bldA) "b" bldB

/-- The same two registrations with the other entry-list order, giving
the other of the two `Range` iteration orders that Go's unspecified
builtin-map order admits for this container. -/
def cyc2swap : Weave := Provide (Provide New "b" bldB) "a" bldA

/-- Acyclic scenario of spec §8: `a` with no dependencies, `b` depending
on `a`, `c` depending on `a` and `b`. -/
def chain3 : Weave :=
  Provide
    (Provide (Provide New "a" (Builder.ret (some ⟨1, []⟩)))
      "b" (Builder.get "a" (fun r =>
        Builder.ret (some ⟨2, match r with | some p => [p] | none => []⟩))))
    "c" (Builder.get "a" (fun r1 => Builder.get "b" (fun r2 =>
      Builder.ret (some
        ⟨3, (match r1 with | some p => [p] | none => []) ++
          (match r2 with | some p => [p] | none => [])⟩))))

/-- Failure scenario: `a` builds fine, `b`'s factory returns nil.  Its
entry list visits `a` before `b`, one of the two iteration orders Go's
unspecified map order admits. -/
def exFail : Weave :=
  Provide (Provide New "a" (Builder.ret (some ⟨1, []⟩)))
    "b" (Builder.ret none)

/-- The failure scenario with the other `Range` order: the failing `b`
is visited first. -/
def exFailSwap : Weave :=
  Provide (Provide New "b" (Builder.ret none))
    "a" (Builder.ret (some ⟨1, []⟩))

/-- A built container whose recorded edges form the two independent
cycles a→b→c→a and b→d→b (entry skeleton shared by all four names). -/
def mkCycEntry (deps : List String) : Entry :=
  { inst := zeroVal, builder := some (Builder.ret (some zeroVal)),
    dependsOn := deps, built := true }

def exTwoCycles : Weave :=
  { entries := [("a", mkCycEntry ["b"]), ("b", mkCycEntry ["c", "d"]),
                ("c", mkCycEntry ["a"]), ("d", mkCycEntry ["b"])],
    ready := 0, built := true, resolver := Resolver.passive, events := [] }

/-- The same four-entry graph with the entry list reversed: another of
the `Range` orders that Go's unspecified map iteration admits. -/
def exTwoCyclesRev : Weave :=
  { entries := [("d", mkCycEntry ["b"]), ("c", mkCycEntry ["a"]),
                ("b", mkCycEntry ["c", "d"]), ("a", mkCycEntry ["b"])],
    ready := 0, built := true, resolver := Resolver.passive, events := [] }

/-! ## Theorems -/

theorem lexLt_irrefl (l : List Char) : lexLt l l = false := by
  induction l with
  | nil => rfl
  | cons c cs ih => simp [lexLt, ih]

theorem lexLt_trans {a b c : List Char} (hab : lexLt a b = true)
    (hbc : lexLt b c = true) : lexLt a c = true := by
  induction a generalizing b c with
  | nil =>
    cases b with
    | nil => simp [lexLt] at hab
    | cons y ys =>
      cases c with
      | nil => simp [lexLt] at hbc
      | cons z zs => rfl
  | cons x xs ih =>
    cases b with
    | nil => simp [lexLt] at hab
    | cons y ys =>
      cases c with
      | nil => simp [lexLt] at hbc
      | cons z zs =>
        simp only [lexLt] at hab hbc ⊢
        rcases Nat.lt_trichotomy x.toNat y.toNat with hxy | hxy | hxy
        · rcases Nat.lt_trichotomy y.toNat z.toNat with hyz | hyz | hyz
          · rw [if_pos (Nat.lt_trans hxy hyz)]
          · rw [if_pos (by omega : x.toNat < z.toNat)]
          · rw [if_neg (by omega : ¬ y.toNat < z.toNat),
              if_pos (by omega : z.toNat < y.toNat)] at hbc
            exact absurd hbc (by simp)
        · rcases Nat.lt_trichotomy y.toNat z.toNat with hyz | hyz | hyz
          · rw [if_pos (by omega : x.toNat < z.toNat)]
          · rw [if_neg (by omega : ¬ x.toNat < y.toNat),
              if_neg (by omega : ¬ y.toNat < x.toNat)] at hab
            rw [if_neg (by omega : ¬ y.toNat < z.toNat),
              if_neg (by omega : ¬ z.toNat < y.toNat)] at hbc
            rw [if_neg (by omega : ¬ x.toNat < z.toNat),
              if_neg (by omega : ¬ z.toNat < x.toNat)]
            exact ih hab hbc
          · rw [if_neg (by omega : ¬ y.toNat < z.toNat),
              if_pos (by omega : z.toNat < y.toNat)] at hbc
            exact absurd hbc (by simp)
        · rw [if_neg (by omega : ¬ x.toNat < y.toNat),
            if_pos (by omega : y.toNat < x.toNat)] at hab
          exact absurd hab (by simp)

theorem lexLt_total_eq {a b : List Char} (hab : lexLt a b = false)
    (hba : lexLt b a = false) : a = b := by
  induction a generalizing b with
  | nil =>
    cases b with
    | nil => rfl
    | cons y ys => simp [lexLt] at hab
  | cons x xs ih =>
    cases b with
    | nil => simp [lexLt] at hba
    | cons y ys =>
      simp only [lexLt] at hab hba
      by_cases hxy : x.toNat < y.toNat
      · rw [if_pos hxy] at hab
        exact absurd hab (by simp)
      · by_cases hyx : y.toNat < x.toNat
        · rw [if_pos hyx] at hba
          exact absurd hba (by simp)
        · rw [if_neg hxy, if_neg hyx] at hab
          rw [if_neg hyx, if_neg hxy] at hba
          have hxy' : x.toNat = y.toNat := by omega
          have hx : x = y := Char.ext (UInt32.ext (by
            simpa [Char.toNat] using hxy'))
          exact hx ▸ congrArg (List.cons x) (ih hab hba)

theorem strLe_total (a b : String) : strLe a b = true ∨ strLe b a = true := by
  by_cases h : lexLt b.data a.data = true
  · right
    have : lexLt a.data b.data = false := by
      by_contra hc
      have hc' : lexLt a.data b.data = true := by
        revert hc; cases lexLt a.data b.data <;> simp
      have := lexLt_trans hc' h
      simp [lexLt_irrefl] at this
    simp [strLe, strLt, this]
  · left
    have h' : lexLt b.data a.data = false := by
      revert h; cases lexLt b.data a.data <;> simp
    simp [strLe, strLt, h']

theorem strLe_trans {a b c : String} (hab : strLe a b = true)
    (hbc : strLe b c = true) : strLe a c = true := by
  simp only [strLe, strLt, Bool.not_eq_true'] at hab hbc ⊢
  by_contra hc
  have hca : lexLt c.data a.data = true := by
    revert hc; cases lexLt c.data a.data <;> simp
  by_cases hcb : lexLt c.data b.data = true
  · exact absurd hcb (by simp [hbc])
  · by_cases hbc' : lexLt b.data c.data = true
    · have : lexLt b.data a.data = true := lexLt_trans hbc' hca
      simp [this] at hab
    · have hcb0 : lexLt c.data b.data = false := by
        revert hcb; cases lexLt c.data b.data <;> simp
      have hbc0 : lexLt b.data c.data = false := by
        revert hbc'; cases lexLt b.data c.data <;> simp
      have hbceq : b.data = c.data := lexLt_total_eq hbc0 hcb0
      rw [← hbceq] at hca
      simp [hca] at hab

theorem strLe_antisymm {a b : String} (hab : strLe a b = true)
    (hba : strLe b a = true) : a = b := by
  simp only [strLe, strLt, Bool.not_eq_true'] at hab hba
  exact String.ext (lexLt_total_eq hba hab)

theorem mapGet_mapUpdate {α : Type} (m : List (String × α)) (k n : String)
    (f : α → α) :
    mapGet (mapUpdate m k f) n =
      if n = k then (mapGet m n).map f else mapGet m n := by
  induction m with
  | nil => by_cases h : n = k <;> simp [mapGet, mapUpdate, h]
  | cons p rest ih =>
    obtain ⟨k', v⟩ := p
    show mapGet ((if k' = k then (k', f v) else (k', v)) :: mapUpdate rest k f)
      n = _
    by_cases h1 : k' = k
    · rw [if_pos h1]
      show (if k' = n then some (f v) else mapGet (mapUpdate rest k f) n) = _
      by_cases h2 : k' = n
      · rw [if_pos h2, if_pos (by rw [← h2, h1] : n = k)]
        show some (f v) = (if k' = n then some v else mapGet rest n).map f
        rw [if_pos h2]
        rfl
      · rw [if_neg h2, ih]
        have hnk : ¬ n = k := fun hc => h2 (by rw [h1, hc])
        rw [if_neg hnk, if_neg hnk]
        show mapGet rest n = (if k' = n then some v else mapGet rest n)
        rw [if_neg h2]
    · rw [if_neg h1]
      show (if k' = n then some v else mapGet (mapUpdate rest k f) n) = _
      by_cases h2 : k' = n
      · have hnk : ¬ n = k := fun hc => h1 (by rw [h2, hc])
        rw [if_pos h2, if_neg hnk]
        show some v = (if k' = n then some v else mapGet rest n)
        rw [if_pos h2]
      · rw [if_neg h2, ih]
        by_cases h3 : n = k
        · rw [if_pos h3, if_pos h3]
          show (mapGet rest n).map f =
            (if k' = n then some v else mapGet rest n).map f
          rw [if_neg h2]
        · rw [if_neg h3, if_neg h3]
          show mapGet rest n = (if k' = n then some v else mapGet rest n)
          rw [if_neg h2]

theorem mapGet_map {α β : Type} (m : List (String × α)) (g : String → α → β)
    (n : String) :
    mapGet (m.map (fun p => (p.1, g p.1 p.2))) n = (mapGet m n).map (g n) := by
  induction m with
  | nil => rfl
  | cons p rest ih =>
    by_cases h : p.1 = n <;> simp [mapGet, h, ih]

theorem mapGet_mem {α : Type} {m : List (String × α)} {k : String} {v : α}
    (h : mapGet m k = some v) : (k, v) ∈ m := by
  induction m with
  | nil => simp [mapGet] at h
  | cons p rest ih =>
    obtain ⟨k', v'⟩ := p
    by_cases hp : k' = k
    · subst hp
      simp [mapGet] at h
      simp [h]
    · simp [mapGet, hp] at h
      exact List.mem_cons_of_mem _ (ih h)

theorem mem_keys_of_mapGet {α : Type} {m : List (String × α)} {k : String}
    (h : (mapGet m k).isSome = true) : k ∈ m.map Prod.fst := by
  obtain ⟨v, hv⟩ := Option.isSome_iff_exists.mp h
  exact List.mem_map.mpr ⟨(k, v), mapGet_mem hv, rfl⟩

theorem mapGet_isSome_of_mem_keys {α : Type} {m : List (String × α)}
    {k : String} (h : k ∈ m.map Prod.fst) : (mapGet m k).isSome = true := by
  induction m with
  | nil => simp at h
  | cons p rest ih =>
    obtain ⟨k', v⟩ := p
    by_cases hp : k' = k
    · show (if k' = k then some v else mapGet rest k).isSome = true
      rw [if_pos hp]
      rfl
    · simp only [List.map_cons, List.mem_cons] at h
      rcases h with h | h
      · exact absurd h.symm hp
      · show (if k' = k then some v else mapGet rest k).isSome = true
        rw [if_neg hp]
        exact ih h

theorem foldl_copyStep (n : String) (d : List Event) (a : Option Val) :
    d.foldl (copyStep n) a =
      match lastCopyVal d n with
      | some v => some v
      | none => a := by
  induction d generalizing a with
  | nil => simp [lastCopyVal]
  | cons e rest ih =>
    show rest.foldl (copyStep n) (copyStep n a e) = _
    rw [ih (copyStep n a e)]
    conv_rhs => rw [lastCopyVal]
    show _ = (match rest.foldl (copyStep n) (copyStep n none e) with
      | some v => some v
      | none => a)
    rw [ih (copyStep n none e)]
    cases hl : lastCopyVal rest n with
    | some v => simp
    | none =>
      cases e with
      | ready => simp [copyStep]
      | copy m v =>
        by_cases hm : m = n <;> simp [copyStep, hm]

theorem lastCopyVal_append (d1 d2 : List Event) (n : String) :
    lastCopyVal (d1 ++ d2) n =
      match lastCopyVal d2 n with
      | some v => some v
      | none => lastCopyVal d1 n := by
  show (d1 ++ d2).foldl (copyStep n) none = _
  rw [List.foldl_append]
  exact foldl_copyStep n d2 (d1.foldl (copyStep n) none)

theorem lastCopyVal_replicate_ready (k : Nat) (n : String) :
    lastCopyVal (List.replicate k Event.ready) n = none := by
  induction k with
  | zero => rfl
  | succ k ih =>
    show lastCopyVal (Event.ready :: List.replicate k Event.ready) n = none
    show (List.replicate k Event.ready).foldl (copyStep n)
      (copyStep n none Event.ready) = none
    exact ih

theorem entrySnap_eq_some {o : Option Entry} {a : Val} {b : Bool} :
    entrySnap o = some (a, b) ↔ ∃ e, o = some e ∧ e.inst = a ∧ e.built = b := by
  cases o with
  | none => simp [entrySnap]
  | some e => simp [entrySnap]

theorem isSome_optionMap {α β : Type} (o : Option α) (f : α → β) :
    (o.map f).isSome = o.isSome := by
  cases o <;> rfl

theorem mapGet_markBuilt (s : Weave) (n : String) (b : Bool) (m : String) :
    mapGet (markBuilt s n b).entries m =
      if m = n then (mapGet s.entries m).map (fun e => { e with built := b })
      else mapGet s.entries m :=
  mapGet_mapUpdate s.entries n m _

theorem mapGet_copyInst (s : Weave) (n : String) (v : Val) (m : String) :
    mapGet (copyInst s n v).entries m =
      if m = n then (mapGet s.entries m).map (fun e => { e with inst := v })
      else mapGet s.entries m :=
  mapGet_mapUpdate s.entries n m _

theorem mapGet_appendDep (s : Weave) (o d : String) (m : String) :
    mapGet (appendDep s o d).entries m =
      if m = o then
        (mapGet s.entries m).map
          (fun e => { e with dependsOn := e.dependsOn ++ [d] })
      else mapGet s.entries m :=
  mapGet_mapUpdate s.entries o m _

theorem lastCopyVal_nil (n : String) : lastCopyVal [] n = none := rfl

theorem lastCopyVal_single (n : String) (v : Val) (m : String) :
    lastCopyVal [Event.copy n v] m = if n = m then some v else none := rfl

theorem tracksWith_of_snap (s s' : Weave) (hev : s'.events = s.events)
    (hkeys : ∀ n, (mapGet s'.entries n).isSome = (mapGet s.entries n).isSome)
    (hsnap : ∀ n, entrySnap (mapGet s'.entries n) =
      entrySnap (mapGet s.entries n)) :
    TracksWith s s' [] := by
  refine ⟨by rw [hev, List.append_nil], fun n => ⟨hkeys n, ?_, ?_⟩⟩
  · intro e he hb
    refine ⟨?_, rfl⟩
    rw [hsnap n, he]
    show some (e.inst, e.built) = some (e.inst, true)
    rw [hb]
  · exact hsnap n

theorem tracksWith_refl (s : Weave) : TracksWith s s [] :=
  tracksWith_of_snap s s rfl (fun _ => rfl) (fun _ => rfl)

theorem tracksWith_trans {s t u : Weave} {d1 d2 : List Event}
    (h1 : TracksWith s t d1) (h2 : TracksWith t u d2) :
    TracksWith s u (d1 ++ d2) := by
  obtain ⟨hev1, hcl1⟩ := h1
  obtain ⟨hev2, hcl2⟩ := h2
  refine ⟨by rw [hev2, hev1, List.append_assoc], fun n => ?_⟩
  obtain ⟨hk1, hb1, hc1⟩ := hcl1 n
  obtain ⟨hk2, hb2, hc2⟩ := hcl2 n
  refine ⟨by rw [hk2, hk1], ?_, ?_⟩
  · intro e he hbuilt
    obtain ⟨hsnap1, hnone1⟩ := hb1 e he hbuilt
    obtain ⟨e1, he1, hinst1, hbuilt1⟩ := entrySnap_eq_some.mp hsnap1
    obtain ⟨hsnap2, hnone2⟩ := hb2 e1 he1 hbuilt1
    constructor
    · rw [hsnap2, hinst1]
    · rw [lastCopyVal_append, hnone2, hnone1]
  · rw [lastCopyVal_append]
    cases hl2 : lastCopyVal d2 n with
    | some v =>
      rw [hl2] at hc2
      exact hc2
    | none =>
      rw [hl2] at hc2
      cases hl1 : lastCopyVal d1 n with
      | none =>
        rw [hl1] at hc1
        show entrySnap _ = entrySnap _
        rw [hc2, hc1]
      | some v =>
        rw [hl1] at hc1
        obtain ⟨e1, he1, hinst1, hbuilt1⟩ := hc1
        have : entrySnap (mapGet u.entries n) = some (v, true) := by
          rw [hc2, he1]
          show some (e1.inst, e1.built) = some (v, true)
          rw [hinst1, hbuilt1]
        exact entrySnap_eq_some.mp this

theorem tracks_refl (s : Weave) : Tracks s s := ⟨[], tracksWith_refl s⟩

theorem tracks_trans {s t u : Weave} (h1 : Tracks s t) (h2 : Tracks t u) :
    Tracks s u := by
  obtain ⟨d1, h1⟩ := h1
  obtain ⟨d2, h2⟩ := h2
  exact ⟨d1 ++ d2, tracksWith_trans h1 h2⟩

theorem tracksWith_appendDep (s : Weave) (o d : String) :
    TracksWith s (appendDep s o d) [] := by
  apply tracksWith_of_snap s (appendDep s o d) rfl
  · intro n
    rw [mapGet_appendDep]
    by_cases h : n = o
    · rw [if_pos h, isSome_optionMap]
    · rw [if_neg h]
  · intro n
    rw [mapGet_appendDep]
    by_cases h : n = o
    · rw [if_pos h]
      cases mapGet s.entries n <;> rfl
    · rw [if_neg h]

theorem tracksWith_resolver (s : Weave) (r : Resolver) :
    TracksWith s { s with resolver := r } [] :=
  tracksWith_of_snap s { s with resolver := r } rfl (fun _ => rfl)
    (fun _ => rfl)

theorem resolveWith_tracks (bld : Weave → String → Option String × Weave)
    (hbld : ∀ t m, Tracks t (bld t m).2) (s : Weave) (dep : String) :
    Tracks s (resolveWith bld s dep).2 := by
  unfold resolveWith
  cases hres : s.resolver with
  | passive =>
    cases hget : mapGet s.entries dep with
    | some e => exact tracks_refl s
    | none => exact tracks_refl s
  | recording owner =>
    cases hget : mapGet s.entries dep with
    | none => exact tracks_refl s
    | some e =>
      show Tracks s (if e.built then (some dep, appendDep s owner dep)
        else match bld (appendDep s owner dep) dep with
          | (none, s2) => (some dep, s2)
          | (some _, s2) => (none, s2)).2
      by_cases hb : e.built
      · rw [if_pos hb]
        exact ⟨[], tracksWith_appendDep s owner dep⟩
      · rw [if_neg hb]
        have h1 : Tracks s (appendDep s owner dep) :=
          ⟨[], tracksWith_appendDep s owner dep⟩
        have h2 := hbld (appendDep s owner dep) dep
        rcases hbb : bld (appendDep s owner dep) dep with ⟨r, s2⟩
        rw [hbb] at h2
        cases r with
        | none => exact tracks_trans h1 h2
        | some err => exact tracks_trans h1 h2

theorem runBWith_tracks (bld : Weave → String → Option String × Weave)
    (hbld : ∀ t m, Tracks t (bld t m).2) :
    ∀ (b : Builder) (s : Weave), Tracks s (runBWith bld b s).2 := by
  intro b
  induction b with
  | ret v => intro s; exact tracks_refl s
  | get dep k ih =>
    intro s
    show Tracks s (runBWith bld
      (k (resolveWith bld s dep).1) (resolveWith bld s dep).2).2
    rcases hres : resolveWith bld s dep with ⟨r, s'⟩
    have h1 : Tracks s s' := by
      have h := resolveWith_tracks bld hbld s dep
      rw [hres] at h
      exact h
    exact tracks_trans h1 (ih r s')

theorem mapGet_frameStart (s : Weave) (name : String) (e : Entry)
    (hget : mapGet s.entries name = some e) (m : String) :
    mapGet (markBuilt { s with resolver := Resolver.recording name }
      name true).entries m =
      if m = name then some { e with built := true }
      else mapGet s.entries m := by
  rw [mapGet_markBuilt]
  by_cases h : m = name
  · rw [if_pos h, if_pos h]
    show (mapGet s.entries m).map _ = _
    rw [h, hget]
    rfl
  · rw [if_neg h, if_neg h]

theorem tracksWith_frameFail (s s3 : Weave) (name : String) (e : Entry)
    (d : List Event)
    (hget : mapGet s.entries name = some e) (hb : e.built = false)
    (htrw : TracksWith
      (markBuilt { s with resolver := Resolver.recording name } name true)
      s3 d) :
    TracksWith s (markBuilt s3 name false) d := by
  obtain ⟨hev3, hcl⟩ := htrw
  have hF1 := mapGet_frameStart s name e hget
  refine ⟨?_, fun m => ?_⟩
  · exact hev3
  · obtain ⟨hk, hbuiltcl, hcopy⟩ := hcl m
    refine ⟨?_, ?_, ?_⟩
    · show (mapGet (markBuilt s3 name false).entries m).isSome = _
      rw [mapGet_markBuilt]
      by_cases h : m = name
      · rw [if_pos h, isSome_optionMap, hk, hF1 m, if_pos h, h, hget]
        rfl
      · rw [if_neg h, hk, hF1 m, if_neg h]
    · intro e0 he0 hbuilt0
      have hne : ¬ m = name := by
        intro hcontra
        rw [hcontra, hget] at he0
        injection he0 with he0'
        rw [← he0'] at hbuilt0
        rw [hb] at hbuilt0
        exact Bool.false_ne_true hbuilt0
      have he2 : mapGet (markBuilt
          { s with resolver := Resolver.recording name } name true).entries m =
          some e0 := by
        rw [hF1 m, if_neg hne]
        exact he0
      obtain ⟨hsnap3, hnone⟩ := hbuiltcl e0 he2 hbuilt0
      refine ⟨?_, hnone⟩
      show entrySnap (mapGet (markBuilt s3 name false).entries m) = _
      rw [mapGet_markBuilt, if_neg hne]
      exact hsnap3
    · by_cases hm : m = name
      · have he2 : mapGet (markBuilt
            { s with resolver := Resolver.recording name } name
            true).entries m = some { e with built := true } := by
          rw [hF1 m, if_pos hm]
        obtain ⟨hsnap3, hnone⟩ := hbuiltcl { e with built := true } he2 rfl
        rw [hnone]
        show entrySnap (mapGet (markBuilt s3 name false).entries m) =
          entrySnap (mapGet s.entries m)
        obtain ⟨e3, he3, hinst3, hbuilt3⟩ := entrySnap_eq_some.mp hsnap3
        rw [mapGet_markBuilt, if_pos hm, he3, hm, hget]
        show some (e3.inst, false) = some (e.inst, e.built)
        rw [hinst3, hb]
      · cases hl : lastCopyVal d m with
        | none =>
          rw [hl] at hcopy
          show entrySnap (mapGet (markBuilt s3 name false).entries m) =
            entrySnap (mapGet s.entries m)
          rw [mapGet_markBuilt, if_neg hm, hcopy, hF1 m, if_neg hm]
        | some v =>
          rw [hl] at hcopy
          obtain ⟨e3, he3, hinst3, hbuilt3⟩ := hcopy
          refine ⟨e3, ?_, hinst3, hbuilt3⟩
          show mapGet (markBuilt s3 name false).entries m = some e3
          rw [mapGet_markBuilt, if_neg hm]
          exact he3

theorem tracksWith_frameSucc (s s3 : Weave) (name : String) (e : Entry)
    (d : List Event) (v : Val) (r : Resolver)
    (hget : mapGet s.entries name = some e) (hb : e.built = false)
    (htrw : TracksWith
      (markBuilt { s with resolver := Resolver.recording name } name true)
      s3 d) :
    TracksWith s { copyInst s3 name v with resolver := r }
      (d ++ [Event.copy name v]) := by
  obtain ⟨hev3, hcl⟩ := htrw
  have hF1 := mapGet_frameStart s name e hget
  refine ⟨?_, fun m => ?_⟩
  · show s3.events ++ [Event.copy name v] = s.events ++ (d ++ [Event.copy name v])
    rw [hev3]
    show s.events ++ d ++ [Event.copy name v] = _
    rw [List.append_assoc]
  · obtain ⟨hk, hbuiltcl, hcopy⟩ := hcl m
    refine ⟨?_, ?_, ?_⟩
    · show (mapGet (copyInst s3 name v).entries m).isSome = _
      rw [mapGet_copyInst]
      by_cases h : m = name
      · rw [if_pos h, isSome_optionMap, hk, hF1 m, if_pos h, h, hget]
        rfl
      · rw [if_neg h, hk, hF1 m, if_neg h]
    · intro e0 he0 hbuilt0
      have hne : ¬ m = name := by
        intro hcontra
        rw [hcontra, hget] at he0
        injection he0 with he0'
        rw [← he0'] at hbuilt0
        rw [hb] at hbuilt0
        exact Bool.false_ne_true hbuilt0
      have he2 : mapGet (markBuilt
          { s with resolver := Resolver.recording name } name true).entries m =
          some e0 := by
        rw [hF1 m, if_neg hne]
        exact he0
      obtain ⟨hsnap3, hnone⟩ := hbuiltcl e0 he2 hbuilt0
      refine ⟨?_, ?_⟩
      · show entrySnap (mapGet (copyInst s3 name v).entries m) = _
        rw [mapGet_copyInst, if_neg hne]
        exact hsnap3
      · rw [lastCopyVal_append, lastCopyVal_single,
          if_neg (fun hc => hne hc.symm : ¬ name = m)]
        exact hnone
    · by_cases hm : m = name
      · rw [lastCopyVal_append, lastCopyVal_single,
          if_pos (hm.symm : name = m)]
        have he2 : mapGet (markBuilt
            { s with resolver := Resolver.recording name } name
            true).entries m = some { e with built := true } := by
          rw [hF1 m, if_pos hm]
        obtain ⟨hsnap3, hnone⟩ := hbuiltcl { e with built := true } he2 rfl
        obtain ⟨e3, he3, hinst3, hbuilt3⟩ := entrySnap_eq_some.mp hsnap3
        refine ⟨{ e3 with inst := v }, ?_, rfl, hbuilt3⟩
        show mapGet (copyInst s3 name v).entries m = some { e3 with inst := v }
        rw [mapGet_copyInst, if_pos hm, he3]
        rfl
      · rw [lastCopyVal_append, lastCopyVal_single,
          if_neg (fun hc => hm hc.symm : ¬ name = m)]
        cases hl : lastCopyVal d m with
        | none =>
          rw [hl] at hcopy
          show entrySnap (mapGet (copyInst s3 name v).entries m) =
            entrySnap (mapGet s.entries m)
          rw [mapGet_copyInst, if_neg hm, hcopy, hF1 m, if_neg hm]
        | some w =>
          rw [hl] at hcopy
          obtain ⟨e3, he3, hinst3, hbuilt3⟩ := hcopy
          refine ⟨e3, ?_, hinst3, hbuilt3⟩
          show mapGet (copyInst s3 name v).entries m = some e3
          rw [mapGet_copyInst, if_neg hm]
          exact he3

theorem build_tracks : ∀ (fuel : Nat) (s : Weave) (name : String),
    Tracks s (build fuel s name).2 := by
  intro fuel
  induction fuel with
  | zero => intro s name; exact tracks_refl s
  | succ fuel ih =>
    intro s name
    simp only [build]
    cases hget : mapGet s.entries name with
    | none => exact tracks_refl s
    | some e =>
      dsimp only
      by_cases hb : e.built
      · rw [if_pos hb]
        exact tracks_refl s
      · rw [if_neg hb]
        have hb' : e.built = false := by
          revert hb; cases e.built <;> simp
        cases hbld : e.builder with
        | none =>
          refine ⟨[], ?_⟩
          have htrw := tracksWith_refl
            (markBuilt { s with resolver := Resolver.recording name }
              name true)
          exact tracksWith_frameFail s _ name e [] hget hb' htrw
        | some b =>
          dsimp only
          have htr := runBWith_tracks (fun t m => build fuel t m)
            (fun t m => ih t m) b
            (markBuilt { s with resolver := Resolver.recording name }
              name true)
          rcases hrun : runBWith (fun t m => build fuel t m) b
              (markBuilt { s with resolver := Resolver.recording name }
                name true) with ⟨res, s3⟩
          rw [hrun] at htr
          obtain ⟨d, htrw⟩ := htr
          cases res with
          | none =>
            exact ⟨d, tracksWith_frameFail s s3 name e d hget hb' htrw⟩
          | some v =>
            exact ⟨d ++ [Event.copy name v],
              tracksWith_frameSucc s s3 name e d v s.resolver hget hb' htrw⟩

theorem tracks_keys {s s' : Weave} (h : Tracks s s') (n : String) :
    (mapGet s'.entries n).isSome = (mapGet s.entries n).isSome := by
  obtain ⟨d, hev, hcl⟩ := h
  exact (hcl n).1

theorem tracks_built_freeze {s s' : Weave} (h : Tracks s s') {n : String}
    {e : Entry} (he : mapGet s.entries n = some e) (hb : e.built = true) :
    ∃ e', mapGet s'.entries n = some e' ∧ e'.inst = e.inst ∧
      e'.built = true := by
  obtain ⟨d, hev, hcl⟩ := h
  obtain ⟨hsnap, -⟩ := (hcl n).2.1 e he hb
  exact entrySnap_eq_some.mp hsnap

theorem build_success_built (fuel : Nat) (s : Weave) (name : String)
    (s' : Weave) (hsucc : build fuel s name = (none, s')) :
    ∃ e', mapGet s'.entries name = some e' ∧ e'.built = true := by
  cases fuel with
  | zero =>
    simp only [build, Prod.mk.injEq] at hsucc
    exact absurd hsucc.1 (by simp)
  | succ fuel =>
    simp only [build] at hsucc
    cases hget : mapGet s.entries name with
    | none =>
      rw [hget] at hsucc
      simp only [Prod.mk.injEq] at hsucc
      exact absurd hsucc.1 (by simp)
    | some e =>
      rw [hget] at hsucc
      dsimp only at hsucc
      by_cases hb : e.built
      · rw [if_pos hb] at hsucc
        simp only [Prod.mk.injEq] at hsucc
        obtain ⟨-, hs⟩ := hsucc
        exact ⟨e, by rw [← hs]; exact hget, hb⟩
      · rw [if_neg hb] at hsucc
        cases hbld : e.builder with
        | none =>
          rw [hbld] at hsucc
          dsimp only at hsucc
          simp only [Prod.mk.injEq] at hsucc
          exact absurd hsucc.1 (by simp)
        | some b =>
          rw [hbld] at hsucc
          dsimp only at hsucc
          rcases hrun : runBWith (fun t m => build fuel t m) b
              (markBuilt { s with resolver := Resolver.recording name }
                name true) with ⟨res, s3⟩
          rw [hrun] at hsucc
          cases res with
          | none =>
            dsimp only at hsucc
            simp only [Prod.mk.injEq] at hsucc
            exact absurd hsucc.1 (by simp)
          | some v =>
            dsimp only at hsucc
            simp only [Prod.mk.injEq] at hsucc
            obtain ⟨-, hs⟩ := hsucc
            have htr := runBWith_tracks (fun t m => build fuel t m)
              (fun t m => build_tracks fuel t m) b
              (markBuilt { s with resolver := Resolver.recording name }
                name true)
            rw [hrun] at htr
            have he2 : mapGet (markBuilt
                { s with resolver := Resolver.recording name } name
                true).entries name = some { e with built := true } := by
              rw [mapGet_frameStart s name e hget, if_pos rfl]
            obtain ⟨e3, he3, hinst3, hbuilt3⟩ :=
              tracks_built_freeze htr he2 rfl
            refine ⟨{ e3 with inst := v }, ?_, hbuilt3⟩
            rw [← hs]
            show mapGet (copyInst s3 name v).entries name =
              some { e3 with inst := v }
            rw [mapGet_copyInst, if_pos rfl, he3]
            rfl

theorem build_success_resolver (fuel : Nat) (s : Weave) (name : String)
    (s' : Weave) (hsucc : build fuel s name = (none, s')) :
    s'.resolver = s.resolver := by
  cases fuel with
  | zero =>
    simp only [build, Prod.mk.injEq] at hsucc
    exact absurd hsucc.1 (by simp)
  | succ fuel =>
    simp only [build] at hsucc
    cases hget : mapGet s.entries name with
    | none =>
      rw [hget] at hsucc
      simp only [Prod.mk.injEq] at hsucc
      exact absurd hsucc.1 (by simp)
    | some e =>
      rw [hget] at hsucc
      dsimp only at hsucc
      by_cases hb : e.built
      · rw [if_pos hb] at hsucc
        simp only [Prod.mk.injEq] at hsucc
        rw [← hsucc.2]
      · rw [if_neg hb] at hsucc
        cases hbld : e.builder with
        | none =>
          rw [hbld] at hsucc
          dsimp only at hsucc
          simp only [Prod.mk.injEq] at hsucc
          exact absurd hsucc.1 (by simp)
        | some b =>
          rw [hbld] at hsucc
          dsimp only at hsucc
          rcases hrun : runBWith (fun t m => build fuel t m) b
              (markBuilt { s with resolver := Resolver.recording name }
                name true) with ⟨res, s3⟩
          rw [hrun] at hsucc
          cases res with
          | none =>
            dsimp only at hsucc
            simp only [Prod.mk.injEq] at hsucc
            exact absurd hsucc.1 (by simp)
          | some v =>
            dsimp only at hsucc
            simp only [Prod.mk.injEq] at hsucc
            rw [← hsucc.2]

theorem resolveWith_preserves_built
    (bld : Weave → String → Option String × Weave)
    (hbld : ∀ t m, (bld t m).2.built = t.built) (s : Weave) (dep : String) :
    (resolveWith bld s dep).2.built = s.built := by
  unfold resolveWith
  cases hres : s.resolver with
  | passive => cases hget : mapGet s.entries dep <;> rfl
  | recording owner =>
    cases hget : mapGet s.entries dep with
    | none => rfl
    | some e =>
      show (if e.built then (some dep, appendDep s owner dep)
        else match bld (appendDep s owner dep) dep with
          | (none, s2) => (some dep, s2)
          | (some _, s2) => (none, s2)).2.built = s.built
      by_cases hb : e.built
      · rw [if_pos hb]
        rfl
      · rw [if_neg hb]
        rcases hbb : bld (appendDep s owner dep) dep with ⟨r, s2⟩
        have hp := hbld (appendDep s owner dep) dep
        rw [hbb] at hp
        cases r with
        | none => exact hp
        | some err => exact hp

theorem runBWith_preserves_built
    (bld : Weave → String → Option String × Weave)
    (hbld : ∀ t m, (bld t m).2.built = t.built) :
    ∀ (b : Builder) (s : Weave), (runBWith bld b s).2.built = s.built := by
  intro b
  induction b with
  | ret v => intro s; rfl
  | get dep k ih =>
    intro s
    show (runBWith bld (k (resolveWith bld s dep).1)
      (resolveWith bld s dep).2).2.built = s.built
    rcases hres : resolveWith bld s dep with ⟨r, s'⟩
    have hp := resolveWith_preserves_built bld hbld s dep
    rw [hres] at hp
    rw [ih r s']
    exact hp

theorem build_preserves_built : ∀ (fuel : Nat) (s : Weave) (name : String),
    (build fuel s name).2.built = s.built := by
  intro fuel
  induction fuel with
  | zero => intro s name; rfl
  | succ fuel ih =>
    intro s name
    simp only [build]
    cases hget : mapGet s.entries name with
    | none => rfl
    | some e =>
      dsimp only
      by_cases hb : e.built
      · rw [if_pos hb]
      · rw [if_neg hb]
        cases hbld : e.builder with
        | none => rfl
        | some b =>
          dsimp only
          rcases hrun : runBWith (fun t m => build fuel t m) b
              (markBuilt { s with resolver := Resolver.recording name }
                name true) with ⟨res, s3⟩
          have hp := runBWith_preserves_built (fun t m => build fuel t m)
            (fun t m => ih t m) b
            (markBuilt { s with resolver := Resolver.recording name }
              name true)
          rw [hrun] at hp
          cases res with
          | none => exact hp
          | some v => exact hp

theorem buildLoop_tracks (fuel : Nat) :
    ∀ (names : List String) (s : Weave),
      Tracks s (buildLoop fuel names s).2 := by
  intro names
  induction names with
  | nil => intro s; exact tracks_refl s
  | cons n rest ih =>
    intro s
    show Tracks s (match build fuel s n with
      | (none, s') => buildLoop fuel rest s'
      | (some e, s') => (some e, s')).2
    rcases hb : build fuel s n with ⟨res, s1⟩
    have h1 := build_tracks fuel s n
    rw [hb] at h1
    cases res with
    | none => exact tracks_trans h1 (ih s1)
    | some e => exact h1

theorem buildLoop_preserves_built (fuel : Nat) :
    ∀ (names : List String) (s : Weave),
      (buildLoop fuel names s).2.built = s.built := by
  intro names
  induction names with
  | nil => intro s; rfl
  | cons n rest ih =>
    intro s
    show (match build fuel s n with
      | (none, s') => buildLoop fuel rest s'
      | (some e, s') => (some e, s')).2.built = s.built
    rcases hb : build fuel s n with ⟨res, s1⟩
    have h1 := build_preserves_built fuel s n
    rw [hb] at h1
    cases res with
    | none => rw [ih s1]; exact h1
    | some e => exact h1

theorem buildLoop_success_resolver (fuel : Nat) :
    ∀ (names : List String) (s s' : Weave),
      buildLoop fuel names s = (none, s') → s'.resolver = s.resolver := by
  intro names
  induction names with
  | nil =>
    intro s s' h
    simp only [buildLoop, Prod.mk.injEq] at h
    rw [← h.2]
  | cons n rest ih =>
    intro s s' h
    rw [show buildLoop fuel (n :: rest) s = (match build fuel s n with
      | (none, s1) => buildLoop fuel rest s1
      | (some e, s1) => (some e, s1)) from rfl] at h
    rcases hb : build fuel s n with ⟨res, s1⟩
    rw [hb] at h
    cases res with
    | none =>
      rw [ih s1 s' h]
      exact build_success_resolver fuel s n s1 hb
    | some e =>
      simp only [Prod.mk.injEq] at h
      exact absurd h.1 (by simp)

theorem buildLoop_success_built (fuel : Nat) :
    ∀ (names : List String) (s s' : Weave),
      buildLoop fuel names s = (none, s') → ∀ n ∈ names,
        ∃ e', mapGet s'.entries n = some e' ∧ e'.built = true := by
  intro names
  induction names with
  | nil => intro s s' h n hn; simp at hn
  | cons m rest ih =>
    intro s s' h n hn
    rw [show buildLoop fuel (m :: rest) s = (match build fuel s m with
      | (none, s1) => buildLoop fuel rest s1
      | (some e, s1) => (some e, s1)) from rfl] at h
    rcases hb : build fuel s m with ⟨res, s1⟩
    rw [hb] at h
    cases res with
    | some e =>
      simp only [Prod.mk.injEq] at h
      exact absurd h.1 (by simp)
    | none =>
      dsimp only at h
      rcases List.mem_cons.mp hn with hnm | hnrest
      · obtain ⟨e1, he1, hbuilt1⟩ := build_success_built fuel s m s1 hb
        have htr := buildLoop_tracks fuel rest s1
        rw [h] at htr
        obtain ⟨e', he', hinst', hbuilt'⟩ :=
          tracks_built_freeze htr he1 hbuilt1
        rw [hnm]
        exact ⟨e', he', hbuilt'⟩
      · exact ih s1 s' h n hnrest

theorem Build_noop (fuel : Nat) (s : Weave) (h : s.built = true) :
    Build fuel s = (none, s) := by
  unfold Build
  rw [if_pos h]

theorem Build_success_builtFlag (fuel : Nat) (s s' : Weave)
    (h : Build fuel s = (none, s')) : s'.built = true := by
  unfold Build at h
  by_cases hb : s.built
  · rw [if_pos hb] at h
    simp only [Prod.mk.injEq] at h
    rw [← h.2]
    exact hb
  · rw [if_neg hb] at h
    rcases hl : buildLoop fuel (s.entries.map Prod.fst) s with ⟨res, t⟩
    rw [hl] at h
    cases res with
    | some e =>
      simp only [Prod.mk.injEq] at h
      exact absurd h.1 (by simp)
    | none =>
      simp only [Prod.mk.injEq] at h
      rw [← h.2]

theorem Build_fail_builtFlag (fuel : Nat) (s s' : Weave) (e : String)
    (hs : s.built = false) (h : Build fuel s = (some e, s')) :
    s'.built = false := by
  unfold Build at h
  rw [if_neg (by rw [hs]; exact Bool.false_ne_true)] at h
  rcases hl : buildLoop fuel (s.entries.map Prod.fst) s with ⟨res, t⟩
  rw [hl] at h
  cases res with
  | none =>
    simp only [Prod.mk.injEq] at h
    exact absurd h.1 (by simp)
  | some e' =>
    simp only [Prod.mk.injEq] at h
    have hp := buildLoop_preserves_built fuel (s.entries.map Prod.fst) s
    rw [hl] at hp
    rw [← h.2, hp, hs]

theorem Build_success_resolver (fuel : Nat) (s s' : Weave)
    (h : Build fuel s = (none, s')) : s'.resolver = s.resolver := by
  unfold Build at h
  by_cases hb : s.built
  · rw [if_pos hb] at h
    simp only [Prod.mk.injEq] at h
    rw [← h.2]
  · rw [if_neg hb] at h
    rcases hl : buildLoop fuel (s.entries.map Prod.fst) s with ⟨res, t⟩
    rw [hl] at h
    cases res with
    | some e =>
      simp only [Prod.mk.injEq] at h
      exact absurd h.1 (by simp)
    | none =>
      simp only [Prod.mk.injEq] at h
      rw [← h.2]
      exact buildLoop_success_resolver fuel (s.entries.map Prod.fst) s t hl

theorem Build_success_state (fuel : Nat) (s s' : Weave)
    (hs : s.built = false) (h : Build fuel s = (none, s')) :
    ∃ t d, buildLoop fuel (s.entries.map Prod.fst) s = (none, t) ∧
      TracksWith s t d ∧ s'.entries = t.entries ∧
      s'.events = s.events ++ (d ++ List.replicate t.ready Event.ready) := by
  unfold Build at h
  rw [if_neg (by rw [hs]; exact Bool.false_ne_true)] at h
  rcases hl : buildLoop fuel (s.entries.map Prod.fst) s with ⟨res, t⟩
  rw [hl] at h
  cases res with
  | some e =>
    simp only [Prod.mk.injEq] at h
    exact absurd h.1 (by simp)
  | none =>
    simp only [Prod.mk.injEq] at h
    obtain ⟨d, htrw⟩ := buildLoop_tracks fuel (s.entries.map Prod.fst) s
    rw [hl] at htrw
    refine ⟨t, d, rfl, htrw, ?_, ?_⟩
    · rw [← h.2]
    · rw [← h.2]
      show t.events ++ List.replicate t.ready Event.ready = _
      rw [htrw.1, List.append_assoc]

/-- C2: for an unbuilt container whose entries are all unbuilt (a fresh
registration set) and whose graph is acyclic, a successful `Build()`
leaves every entry built, with its output slot holding exactly the value
its factory produced (the last reflection copy recorded for it) — so a
dependency pointer captured by any dependent, read in the final state,
observes exactly the factory-produced fields and no zero-valued
placeholder contents. -/
theorem acyclic_build_copies_into_slots
    (fuel fuel2 : Nat) (s s' : Weave)
    (hflag : s.built = false)
    (hfresh : ∀ n e, mapGet s.entries n = some e → e.built = false)
    (hsucc : Build fuel s = (none, s'))
    (hacyc : (HasCircularDependency fuel2 s').1 = false) :
    ∀ n e', mapGet s'.entries n = some e' →
      e'.built = true ∧ lastCopyVal (evDiff s s') n = some e'.inst := by
  obtain ⟨t, d, hloop, htrw, hent, hev⟩ :=
    Build_success_state fuel s s' hflag hsucc
  have hevdiff : evDiff s s' = d ++ List.replicate t.ready Event.ready := by
    rw [evDiff, hev, List.drop_left]
  intro n e' he'
  have he't : mapGet t.entries n = some e' := by rw [← hent]; exact he'
  have hkeys := (htrw.2 n).1
  have hmem : n ∈ s.entries.map Prod.fst := by
    apply mem_keys_of_mapGet
    rw [← hkeys, he't]
    rfl
  obtain ⟨e'', he'', hb''⟩ :=
    buildLoop_success_built fuel (s.entries.map Prod.fst) s t hloop n hmem
  have he'e : e'' = e' := by
    rw [he't] at he''
    injection he'' with h
    exact h.symm
  have hbuilt : e'.built = true := by rw [← he'e]; exact hb''
  refine ⟨hbuilt, ?_⟩
  have hlast : lastCopyVal (evDiff s s') n = lastCopyVal d n := by
    rw [hevdiff, lastCopyVal_append, lastCopyVal_replicate_ready]
  rw [hlast]
  have hcopy := (htrw.2 n).2.2
  cases hl : lastCopyVal d n with
  | none =>
    rw [hl] at hcopy
    have hsome : (mapGet s.entries n).isSome = true := by
      rw [← hkeys, he't]
      rfl
    obtain ⟨e0, he0⟩ := Option.isSome_iff_exists.mp hsome
    have hfr := hfresh n e0 he0
    rw [he't, he0] at hcopy
    have : (e'.inst, e'.built) = (e0.inst, e0.built) := by
      injection hcopy
    rw [hbuilt, hfr] at this
    exact absurd (congrArg Prod.snd this) (by simp)
  | some v =>
    rw [hl] at hcopy
    obtain ⟨e3, he3, hinst3, hbuilt3⟩ := hcopy
    rw [he't] at he3
    injection he3 with he3'
    rw [← hinst3, he3']

theorem mapGet_mapSet {α : Type} (m : List (String × α)) (k : String) (v : α)
    (n : String) :
    mapGet (mapSet m k v) n = if n = k then some v else mapGet m n := by
  induction m with
  | nil =>
    show (if k = n then some v else none) = _
    by_cases h : n = k
    · rw [if_pos h.symm, if_pos h]
    · rw [if_neg (fun hc => h hc.symm), if_neg h]
      rfl
  | cons p rest ih =>
    obtain ⟨k', v'⟩ := p
    show mapGet (if k' = k then (k', v) :: rest else (k', v') :: mapSet rest k v)
      n = _
    by_cases h1 : k' = k
    · rw [if_pos h1]
      show (if k' = n then some v else mapGet rest n) = _
      by_cases h2 : k' = n
      · rw [if_pos h2, if_pos (by rw [← h2, h1] : n = k)]
      · rw [if_neg h2, if_neg (fun hc => h2 (by rw [h1, ← hc]) : ¬ n = k)]
        show mapGet rest n = (if k' = n then some v' else mapGet rest n)
        rw [if_neg h2]
    · rw [if_neg h1]
      show (if k' = n then some v' else mapGet (mapSet rest k v) n) = _
      by_cases h2 : k' = n
      · rw [if_pos h2, if_neg (fun hc => h1 (by rw [h2, hc]) : ¬ n = k)]
        show some v' = (if k' = n then some v' else mapGet rest n)
        rw [if_pos h2]
      · rw [if_neg h2, ih]
        by_cases h3 : n = k
        · rw [if_pos h3, if_pos h3]
        · rw [if_neg h3, if_neg h3]
          show mapGet rest n = (if k' = n then some v' else mapGet rest n)
          rw [if_neg h2]

theorem provide_fresh (s : Weave) (name : String) (b : Builder)
    (h : ∀ m e, mapGet s.entries m = some e → e.built = false) :
    ∀ m e, mapGet (Provide s name b).entries m = some e → e.built = false := by
  intro m e hm
  have hm' : mapGet (mapSet s.entries name
      { inst := zeroVal, builder := some b, dependsOn := [],
        built := false }) m = some e := hm
  rw [mapGet_mapSet] at hm'
  by_cases hmn : m = name
  · rw [if_pos hmn] at hm'
    injection hm' with he
    rw [← he]
  · rw [if_neg hmn] at hm'
    exact h m e hm'

theorem New_fresh : ∀ m e, mapGet New.entries m = some e → e.built = false := by
  intro m e h
  exact absurd h (by simp [New, mapGet])

/-- C7: a successful `Build()` is idempotent — with the built flag set,
`Build()` returns success with the container completely untouched (no
factory run, no ready callback, no new events), and a second `Build()`
after a successful one is exactly such a no-op. -/
theorem Build_idempotent :
    (∀ (fuel : Nat) (s : Weave), s.built = true → Build fuel s = (none, s)) ∧
    (∀ (fuel fuel2 : Nat) (s s' : Weave), Build fuel s = (none, s') →
      Build fuel2 s' = (none, s')) :=
  ⟨fun fuel s h => Build_noop fuel s h,
   fun fuel fuel2 s s' h => Build_noop fuel2 s' (Build_success_builtFlag fuel s s' h)⟩

theorem Build_idempotent_witness :
    Build 3 (Build 10 cyc2).2 = (none, (Build 10 cyc2).2) :=
  Build_idempotent.2 10 3 cyc2 (Build 10 cyc2).2 rfl

/-- C8: if an entry's recursive build fails, the `Build` range loop
returns that failure at once without attempting the remaining entries,
and a failed `Build()` leaves the built flag unset; when a factory
produces no usable result (`nil`), `build` reports "service [N] build
failed" and resets that entry's build state to unbuilt. -/
theorem Build_failure_aborts :
    (∀ (fuel : Nat) (n : String) (rest : List String) (s : Weave)
       (e : String) (s' : Weave), build fuel s n = (some e, s') →
       buildLoop fuel (n :: rest) s = (some e, s')) ∧
    (∀ (fuel : Nat) (s s' : Weave) (e : String), s.built = false →
       Build fuel s = (some e, s') → s'.built = false) ∧
    (∀ (fuel : Nat) (s : Weave) (name : String) (e : Entry) (b : Builder)
       (s3 : Weave),
       mapGet s.entries name = some e → e.built = false →
       e.builder = some b →
       runBWith (fun t m => build fuel t m) b
         (markBuilt { s with resolver := Resolver.recording name }
           name true) = (none, s3) →
       build (fuel + 1) s name =
         (some (buildFailedMsg name), markBuilt s3 name false) ∧
       ∃ e', mapGet (markBuilt s3 name false).entries name = some e' ∧
         e'.built = false) := by
  refine ⟨?_, ?_, ?_⟩
  · intro fuel n rest s e s' h
    rw [show buildLoop fuel (n :: rest) s = (match build fuel s n with
      | (none, s1) => buildLoop fuel rest s1
      | (some er, s1) => (some er, s1)) from rfl, h]
  · intro fuel s s' e hs h
    exact Build_fail_builtFlag fuel s s' e hs h
  · intro fuel s name e b s3 hget hb hbld hrun
    constructor
    · simp only [build]
      rw [hget]
      dsimp only
      rw [if_neg (by rw [hb]; exact Bool.false_ne_true)]
      rw [hbld]
      dsimp only
      rw [hrun]
    · have htr := runBWith_tracks (fun t m => build fuel t m)
        (fun t m => build_tracks fuel t m) b
        (markBuilt { s with resolver := Resolver.recording name } name true)
      rw [hrun] at htr
      have hkeys := tracks_keys htr name
      have hs2 : mapGet (markBuilt
          { s with resolver := Resolver.recording name } name
          true).entries name = some { e with built := true } := by
        rw [mapGet_frameStart s name e hget, if_pos rfl]
      have hsome : (mapGet s3.entries name).isSome = true := by
        rw [hkeys, hs2]
        rfl
      obtain ⟨e3, he3⟩ := Option.isSome_iff_exists.mp hsome
      refine ⟨{ e3 with built := false }, ?_, rfl⟩
      rw [mapGet_markBuilt, if_pos rfl, he3]
      rfl

theorem Build_failure_aborts_witness :
    build 5 exFail "b" = (some (buildFailedMsg "b"),
      markBuilt (markBuilt { exFail with resolver := Resolver.recording "b" }
        "b" true) "b" false) ∧
    (Build 5 exFail).2.built = false := by
  constructor
  · exact (Build_failure_aborts.2.2 4 exFail "b"
      { inst := zeroVal, builder := some (Builder.ret none),
        dependsOn := [], built := false }
      (Builder.ret none) _ rfl rfl rfl rfl).1
  · exact Build_failure_aborts.2.1 5 exFail (Build 5 exFail).2
      (buildFailedMsg "b") rfl rfl

/-- C1: for the two-node cycle a↔b (each factory requesting the other
through the active resolver), `Build()` terminates with success within
finite fuel, both slots end fully populated with mutual pointers (the
nested request during construction received the partner's output slot
instead of recursing), and `HasCircularDependency()` afterwards reports
true with a path containing both `a` and `b`.  Go leaves the `Range`
iteration order of the entry map unspecified, so the fact is established
for both iteration orders of the two entries (`cyc2` visits `a` first,
`cyc2swap` visits `b` first). -/
theorem cycle2_build_succeeds_and_cycle_reported :
    ((Build 10 cyc2).1 = none ∧
     ((mapGet (Build 10 cyc2).2.entries "a").map (fun e => (e.inst, e.built))
       = some (⟨1, ["b"]⟩, true)) ∧
     ((mapGet (Build 10 cyc2).2.entries "b").map (fun e => (e.inst, e.built))
       = some (⟨2, ["a"]⟩, true)) ∧
     (HasCircularDependency 10 (Build 10 cyc2).2).1 = true ∧
     "a" ∈ (HasCircularDependency 10 (Build 10 cyc2).2).2 ∧
     "b" ∈ (HasCircularDependency 10 (Build 10 cyc2).2).2) ∧
    ((Build 10 cyc2swap).1 = none ∧
     ((mapGet (Build 10 cyc2swap).2.entries "a").map
        (fun e => (e.inst, e.built)) = some (⟨1, ["b"]⟩, true)) ∧
     ((mapGet (Build 10 cyc2swap).2.entries "b").map
        (fun e => (e.inst, e.built)) = some (⟨2, ["a"]⟩, true)) ∧
     (HasCircularDependency 10 (Build 10 cyc2swap).2).1 = true ∧
     "a" ∈ (HasCircularDependency 10 (Build 10 cyc2swap).2).2 ∧
     "b" ∈ (HasCircularDependency 10 (Build 10 cyc2swap).2).2) := by decide

/-- C4 counterexample: after a failed `Build()` the container's active
resolver is the edge-recording resolver of the failed entry, not the
passive one — the claim's "restored on exit whether it succeeds or
fails" is false on the code (`build`'s failure paths return before the
line that restores `getServiceFunc`).  The leak occurs under both
`Range` iteration orders of the two entries (`exFail` visits the
succeeding `a` first, `exFailSwap` the failing `b` first), so it does
not depend on the Go-unspecified map order. -/
theorem resolver_left_recording_after_failed_build :
    ((Build 5 exFail).1 = some (buildFailedMsg "b") ∧
     (Build 5 exFail).2.resolver = Resolver.recording "b") ∧
    ((Build 5 exFailSwap).1 = some (buildFailedMsg "b") ∧
     (Build 5 exFailSwap).2.resolver = Resolver.recording "b") ∧
    Resolver.recording "b" ≠ Resolver.passive := by decide

/-- C4 amended: the recursive build procedure restores the saved
resolver only on its success path, and consequently after any successful
`Build()` the container's resolver is the one from before the call (the
passive one outside a build); after a failed `Build()` the recording
resolver of the failed entry can remain active. -/
theorem resolver_restored_only_on_success :
    (∀ (fuel : Nat) (s : Weave) (n : String) (s' : Weave),
       build fuel s n = (none, s') → s'.resolver = s.resolver) ∧
    (∀ (fuel : Nat) (s s' : Weave), Build fuel s = (none, s') →
       s'.resolver = s.resolver) :=
  ⟨build_success_resolver, Build_success_resolver⟩

theorem resolver_restored_only_on_success_witness :
    (Build 10 cyc2).2.resolver = cyc2.resolver :=
  resolver_restored_only_on_success.2 10 cyc2 (Build 10 cyc2).2 rfl

/-- C5 counterexample: after a failed `Build()` (factory of `b` returns
nil), service `a` is observable through `GetService` as a built,
factory-populated instance — the claim's "no partial instance set is
exposed on failure" is false on the code, which has no rollback of
entries built earlier in the pass.  The run shown uses the `Range` order
that visits `a` before `b`; Go's builtin-map iteration order is
unspecified, so this is an admissible execution, which refutes the
original claim's universal "never observable". -/
theorem partial_instance_observable_after_failed_build :
    (Build 5 exFail).1 = some (buildFailedMsg "b") ∧
    (Build 5 exFail).2.built = false ∧
    (GetService 5 (Build 5 exFail).2 "a").1 = some "a" ∧
    ((mapGet (Build 5 exFail).2.entries "a").map (fun e => (e.inst, e.built))
      = some (⟨1, []⟩, true)) := by decide

/-- C5 amended: a failed `Build()` leaves the container's built flag
unset (a later `Build()` re-attempts; this first conjunct is over all
states, hence over every `Range` order), but entries already built
during the failed pass keep their factory-populated instances and remain
observable — there is no rollback of partial results, exhibited here
under the admissible iteration order that visits `a` before the failing
`b`. -/
theorem failed_build_flag_unset_partials_remain :
    (∀ (fuel : Nat) (s s' : Weave) (e : String), s.built = false →
       Build fuel s = (some e, s') → s'.built = false) ∧
    ((mapGet (Build 5 exFail).2.entries "a").map (fun e => (e.inst, e.built))
      = some (⟨1, []⟩, true)) :=
  ⟨fun fuel s s' e hs h => Build_fail_builtFlag fuel s s' e hs h, by decide⟩

theorem failed_build_flag_unset_partials_remain_witness :
    (Build 5 exFail).2.built = false :=
  failed_build_flag_unset_partials_remain.1 5 exFail (Build 5 exFail).2
    (buildFailedMsg "b") rfl rfl

theorem acyclic_build_copies_into_slots_witness :
    ∃ e', mapGet (Build 10 chain3).2.entries "c" = some e' ∧
      e'.built = true ∧
      lastCopyVal (evDiff chain3 (Build 10 chain3).2) "c" = some e'.inst := by
  have hfresh : ∀ m e, mapGet chain3.entries m = some e → e.built = false :=
    provide_fresh _ _ _ (provide_fresh _ _ _ (provide_fresh _ _ _ New_fresh))
  have h := acyclic_build_copies_into_slots 10 10 chain3 (Build 10 chain3).2
    rfl hfresh rfl (by decide)
  rcases hc : mapGet (Build 10 chain3).2.entries "c" with _ | e'
  · have hsome : (mapGet (Build 10 chain3).2.entries "c").isSome = true := by
      decide
    rw [hc] at hsome
    exact absurd hsome (by simp)
  · exact ⟨e', rfl, h "c" e' hc⟩

theorem foldl_addDependent_nil (deps0 : List (String × List String))
    (hnil : ∀ p ∈ deps0, p.2 = ([] : List String)) :
    ∀ acc : List (String × List String),
      deps0.foldl (fun acc2 p =>
        p.2.foldl (fun acc3 dep => addDependent acc3 dep p.1) acc2) acc
      = acc := by
  induction deps0 with
  | nil => intro acc; rfl
  | cons p rest ih =>
    intro acc
    show rest.foldl _ (p.2.foldl _ acc) = acc
    rw [hnil p (List.mem_cons_self p rest)]
    exact ih (fun q hq => hnil q (List.mem_cons_of_mem p hq)) acc

theorem graph_empty_of_no_edges (w : Weave)
    (hnil : ∀ q ∈ w.entries, q.2.dependsOn = ([] : List String)) :
    (∀ p ∈ (GetDependencyGraph w).Dependencies, p.2 = ([] : List String)) ∧
    (∀ p ∈ (GetDependencyGraph w).Dependents, p.2 = ([] : List String)) := by
  have hdeps0 : ∀ q ∈ w.entries.map (fun p => (p.1, p.2.dependsOn)),
      q.2 = ([] : List String) := by
    intro q hq
    obtain ⟨r, hr, hqr⟩ := List.mem_map.mp hq
    rw [← hqr]
    exact hnil r hr
  constructor
  · intro p hp
    obtain ⟨q, hq, hpq⟩ := List.mem_map.mp hp
    rw [← hpq, hdeps0 q hq]
    rfl
  · intro p hp
    have hp2 : p ∈ ((w.entries.map (fun p => (p.1, p.2.dependsOn))).foldl
        (fun acc p =>
          p.2.foldl (fun acc2 dep => addDependent acc2 dep p.1) acc)
        (w.entries.map (fun p => (p.1, ([] : List String))))).map
        (fun p =>
          if containsKey (w.entries.map (fun q => (q.1, q.2.dependsOn))) p.1
          then (p.1, sortStrings p.2) else p) := hp
    rw [foldl_addDependent_nil _ hdeps0 _] at hp2
    obtain ⟨q, hq, hpq⟩ := List.mem_map.mp hp2
    obtain ⟨r, hr, hqr⟩ := List.mem_map.mp hq
    by_cases hc : containsKey
        (w.entries.map (fun q => (q.1, q.2.dependsOn))) q.1 = true
    · rw [← hpq, if_pos hc, ← hqr]
      rfl
    · rw [← hpq, if_neg hc, ← hqr]

/-- C9: `Compact()` and `Extract()` abort (panic, modelled as `none`)
when invoked before a successful `Build()`; after a successful `Build()`
followed by `Compact()`, the dependency graph has an empty adjacency
list for every entry in both directions — all recorded edges are
discarded. -/
theorem compact_extract_preconditions_and_degradation :
    (∀ s : Weave, s.built = false → Compact s = none ∧ Extract s = none) ∧
    (∀ (fuel : Nat) (s s' : Weave), Build fuel s = (none, s') →
       ∃ s'', Compact s' = some s'' ∧
         (∀ p ∈ (GetDependencyGraph s'').Dependencies,
           p.2 = ([] : List String)) ∧
         (∀ p ∈ (GetDependencyGraph s'').Dependents,
           p.2 = ([] : List String))) := by
  constructor
  · intro s h
    constructor
    · unfold Compact
      rw [if_neg (by rw [h]; exact Bool.false_ne_true)]
    · unfold Extract
      rw [if_neg (by rw [h]; exact Bool.false_ne_true)]
  · intro fuel s s' h
    have hbuilt := Build_success_builtFlag fuel s s' h
    have hcomp : Compact s' = some
        { s' with
          ready := 0,
          entries := s'.entries.map
            (fun p =>
              (p.1, { p.2 with builder := none, dependsOn := [] })) } := by
      unfold Compact
      rw [if_pos hbuilt]
    refine ⟨_, hcomp, ?_, ?_⟩
    all_goals {
      have hnil : ∀ q ∈ (({ s' with
          ready := 0,
          entries := s'.entries.map
            (fun p =>
              (p.1, { p.2 with builder := none, dependsOn := [] })) }
          : Weave)).entries,
          q.2.dependsOn = ([] : List String) := by
        intro q hq
        obtain ⟨r, hr, hqr⟩ := List.mem_map.mp hq
        rw [← hqr]
      first
      | exact (graph_empty_of_no_edges _ hnil).1
      | exact (graph_empty_of_no_edges _ hnil).2
    }

theorem compact_extract_preconditions_and_degradation_witness :
    (Compact New = none ∧ Extract New = none) ∧
    ∃ s'', Compact (Build 10 chain3).2 = some s'' ∧
      (∀ p ∈ (GetDependencyGraph s'').Dependencies,
        p.2 = ([] : List String)) ∧
      (∀ p ∈ (GetDependencyGraph s'').Dependents,
        p.2 = ([] : List String)) :=
  ⟨compact_extract_preconditions_and_degradation.1 New rfl,
   compact_extract_preconditions_and_degradation.2 10 chain3
     (Build 10 chain3).2 rfl⟩

theorem takeUntilIncl_ne_nil {l : List String} {a : String} (h : a ∈ l) :
    takeUntilIncl l a ≠ [] := by
  induction l with
  | nil => simp at h
  | cons x rest ih =>
    show (if x = a then [x] else x :: takeUntilIncl rest a) ≠ []
    by_cases hx : x = a
    · rw [if_pos hx]
      simp
    · rw [if_neg hx]
      simp

theorem takeUntilIncl_subset {l : List String} {a : String} :
    ∀ y ∈ takeUntilIncl l a, y ∈ l := by
  induction l with
  | nil => intro y hy; simp [takeUntilIncl] at hy
  | cons x rest ih =>
    intro y hy
    rw [show takeUntilIncl (x :: rest) a =
      (if x = a then [x] else x :: takeUntilIncl rest a) from rfl] at hy
    by_cases hx : x = a
    · rw [if_pos hx] at hy
      simp at hy
      simp [hy]
    · rw [if_neg hx] at hy
      rcases List.mem_cons.mp hy with h | h
      · simp [h]
      · exact List.mem_cons_of_mem x (ih y h)

theorem getLast?_cons_of_ne_nil {x : String} {t : List String} (h : t ≠ []) :
    (x :: t).getLast? = t.getLast? := by
  cases t with
  | nil => exact absurd rfl h
  | cons y ys => exact List.getLast?_cons_cons

theorem takeUntilIncl_getLast {l : List String} {a : String} (h : a ∈ l) :
    (takeUntilIncl l a).getLast? = some a := by
  induction l with
  | nil => simp at h
  | cons x rest ih =>
    show (if x = a then [x] else x :: takeUntilIncl rest a).getLast? = some a
    by_cases hx : x = a
    · rw [if_pos hx, hx]
      rfl
    · rw [if_neg hx]
      have ha : a ∈ rest := by
        rcases List.mem_cons.mp h with h1 | h1
        · exact absurd h1.symm hx
        · exact h1
      rw [getLast?_cons_of_ne_nil (takeUntilIncl_ne_nil ha)]
      exact ih ha

theorem mem_graphNames_key {deps : List (String × List String)}
    {p : String × List String} (hp : p ∈ deps) : p.1 ∈ graphNames deps := by
  induction deps with
  | nil => simp at hp
  | cons q rest ih =>
    show p.1 ∈ q.1 :: (q.2 ++ graphNames rest)
    rcases List.mem_cons.mp hp with h | h
    · rw [h]
      exact List.mem_cons_self _ _
    · exact List.mem_cons_of_mem _ (List.mem_append_right _ (ih h))

theorem mem_graphNames_dep {deps : List (String × List String)}
    {p : String × List String} (hp : p ∈ deps) {x : String} (hx : x ∈ p.2) :
    x ∈ graphNames deps := by
  induction deps with
  | nil => simp at hp
  | cons q rest ih =>
    show x ∈ q.1 :: (q.2 ++ graphNames rest)
    rcases List.mem_cons.mp hp with h | h
    · rw [← h]
      exact List.mem_cons_of_mem _ (List.mem_append_left _ hx)
    · exact List.mem_cons_of_mem _ (List.mem_append_right _ (ih h))

theorem lookupDeps_subset (deps : List (String × List String)) (n : String) :
    ∀ x ∈ lookupDeps deps n, x ∈ graphNames deps := by
  intro x hx
  unfold lookupDeps at hx
  cases hg : mapGet deps n with
  | none =>
    rw [hg] at hx
    simp at hx
  | some l =>
    rw [hg] at hx
    exact mem_graphNames_dep (mapGet_mem hg) hx

theorem keys_subset_graphNames (deps : List (String × List String)) :
    ∀ x ∈ deps.map Prod.fst, x ∈ graphNames deps := by
  intro x hx
  obtain ⟨p, hp, hpx⟩ := List.mem_map.mp hx
  rw [← hpx]
  exact mem_graphNames_key hp

theorem dfsGoWith_none_state
    (f : String → DetectState → Option (List String) × DetectState)
    (hf : ∀ n st st', f n st = (none, st') →
      st'.visiting = st.visiting ∧ st'.path = st.path) :
    ∀ (ds : List String) (st st' : DetectState),
      dfsGoWith f ds st = (none, st') →
      st'.visiting = st.visiting ∧ st'.path = st.path := by
  intro ds
  induction ds with
  | nil =>
    intro st st' h
    simp only [dfsGoWith, Prod.mk.injEq] at h
    rw [← h.2]
    exact ⟨rfl, rfl⟩
  | cons d rest ih =>
    intro st st' h
    rw [show dfsGoWith f (d :: rest) st = (match f d st with
      | (some c, st1) => (some c, st1)
      | (none, st1) => dfsGoWith f rest st1) from rfl] at h
    rcases hd : f d st with ⟨r1, st1⟩
    rw [hd] at h
    cases r1 with
    | some c =>
      simp only [Prod.mk.injEq] at h
      exact absurd h.1 (by simp)
    | none =>
      dsimp only at h
      obtain ⟨h1, h2⟩ := hf d st st1 hd
      obtain ⟨h3, h4⟩ := ih st1 st' h
      exact ⟨by rw [h3, h1], by rw [h4, h2]⟩

theorem dfsDetect_none_state :
    ∀ (fuel : Nat) (deps : List (String × List String)) (node : String)
      (st st' : DetectState), dfsDetect fuel deps node st = (none, st') →
      st'.visiting = st.visiting ∧ st'.path = st.path := by
  intro fuel
  induction fuel with
  | zero =>
    intro deps node st st' h
    simp only [dfsDetect, Prod.mk.injEq] at h
    rw [← h.2]
    exact ⟨rfl, rfl⟩
  | succ fuel ih =>
    intro deps node st st' h
    simp only [dfsDetect] at h
    by_cases hv : node ∈ st.visiting
    · rw [if_pos hv] at h
      simp only [Prod.mk.injEq] at h
      exact absurd h.1 (by simp)
    · rw [if_neg hv] at h
      by_cases hd : node ∈ st.visited
      · rw [if_pos hd] at h
        simp only [Prod.mk.injEq] at h
        rw [← h.2]
        exact ⟨rfl, rfl⟩
      · rw [if_neg hd] at h
        rcases hgo : dfsGoWith (fun d t => dfsDetect fuel deps d t)
            (lookupDeps deps node)
            { visited := st.visited, visiting := node :: st.visiting,
              path := st.path ++ [node] } with ⟨r2, st2⟩
        rw [hgo] at h
        cases r2 with
        | some c =>
          simp only [Prod.mk.injEq] at h
          exact absurd h.1 (by simp)
        | none =>
          dsimp only at h
          simp only [Prod.mk.injEq] at h
          obtain ⟨hvg, hpath⟩ := dfsGoWith_none_state _
            (fun n a b hh => ih deps n a b hh) _ _ _ hgo
          rw [← h.2]
          constructor
          · show st2.visiting.erase node = st.visiting
            rw [hvg]
            exact List.erase_cons_head node st.visiting
          · show st2.path.dropLast = st.path
            rw [hpath]
            exact List.dropLast_concat

theorem dfsGoWith_some_shape (names : List String)
    (f : String → DetectState → Option (List String) × DetectState)
    (hfstate : ∀ n st st', f n st = (none, st') →
      st'.visiting = st.visiting ∧ st'.path = st.path)
    (hfshape : ∀ n st c st', (∀ x ∈ st.visiting, x ∈ st.path) →
      (∀ x ∈ st.path, x ∈ names) → n ∈ names →
      f n st = (some c, st') → ClosedPath names c) :
    ∀ (ds : List String) (st : DetectState) (c : List String)
      (st' : DetectState),
      (∀ x ∈ st.visiting, x ∈ st.path) → (∀ x ∈ st.path, x ∈ names) →
      (∀ d ∈ ds, d ∈ names) →
      dfsGoWith f ds st = (some c, st') → ClosedPath names c := by
  intro ds
  induction ds with
  | nil =>
    intro st c st' hv hp hd h
    simp only [dfsGoWith, Prod.mk.injEq] at h
    exact absurd h.1 (by simp)
  | cons d rest ih =>
    intro st c st' hv hp hd h
    rw [show dfsGoWith f (d :: rest) st = (match f d st with
      | (some c, st1) => (some c, st1)
      | (none, st1) => dfsGoWith f rest st1) from rfl] at h
    rcases hfd : f d st with ⟨r1, st1⟩
    rw [hfd] at h
    cases r1 with
    | some c1 =>
      simp only [Prod.mk.injEq] at h
      injection h.1 with hc
      rw [← hc]
      exact hfshape d st c1 st1 hv hp (hd d (List.mem_cons_self d rest)) hfd
    | none =>
      dsimp only at h
      obtain ⟨hvg, hpath⟩ := hfstate d st st1 hfd
      exact ih st1 c st' (by rw [hvg, hpath]; exact hv)
        (by rw [hpath]; exact hp)
        (fun x hx => hd x (List.mem_cons_of_mem d hx)) h

theorem dfsDetect_some_shape :
    ∀ (fuel : Nat) (deps : List (String × List String)) (node : String)
      (st : DetectState) (c : List String) (st' : DetectState),
      (∀ x ∈ st.visiting, x ∈ st.path) →
      (∀ x ∈ st.path, x ∈ graphNames deps) →
      node ∈ graphNames deps →
      dfsDetect fuel deps node st = (some c, st') →
      ClosedPath (graphNames deps) c := by
  intro fuel
  induction fuel with
  | zero =>
    intro deps node st c st' hv hp hn h
    simp only [dfsDetect, Prod.mk.injEq] at h
    exact absurd h.1 (by simp)
  | succ fuel ih =>
    intro deps node st c st' hv hp hn h
    simp only [dfsDetect] at h
    by_cases hvis : node ∈ st.visiting
    · rw [if_pos hvis] at h
      simp only [Prod.mk.injEq] at h
      have hcyc : c = node :: takeUntilIncl st.path.reverse node := by
        have := h.1
        injection this with this'
        exact this'.symm
      have hnodepath : node ∈ st.path.reverse :=
        List.mem_reverse.mpr (hv node hvis)
      rw [hcyc]
      refine ⟨by simp, ?_, ?_, ?_⟩
      · have hne := takeUntilIncl_ne_nil hnodepath
        have : 1 ≤ (takeUntilIncl st.path.reverse node).length := by
          cases hh : takeUntilIncl st.path.reverse node with
          | nil => exact absurd hh hne
          | cons a t => simp
        show 2 ≤ (takeUntilIncl st.path.reverse node).length + 1
        omega
      · rw [getLast?_cons_of_ne_nil (takeUntilIncl_ne_nil hnodepath),
          takeUntilIncl_getLast hnodepath]
        rfl
      · intro x hx
        rcases List.mem_cons.mp hx with h1 | h1
        · rw [h1]
          exact hn
        · exact hp x (List.mem_reverse.mp (takeUntilIncl_subset x h1))
    · rw [if_neg hvis] at h
      by_cases hvd : node ∈ st.visited
      · rw [if_pos hvd] at h
        simp only [Prod.mk.injEq] at h
        exact absurd h.1 (by simp)
      · rw [if_neg hvd] at h
        rcases hgo : dfsGoWith (fun d t => dfsDetect fuel deps d t)
            (lookupDeps deps node)
            { visited := st.visited, visiting := node :: st.visiting,
              path := st.path ++ [node] } with ⟨r2, st2⟩
        rw [hgo] at h
        cases r2 with
        | none =>
          dsimp only at h
          simp only [Prod.mk.injEq] at h
          exact absurd h.1 (by simp)
        | some c2 =>
          simp only [Prod.mk.injEq] at h
          injection h.1 with hc
          rw [← hc]
          refine dfsGoWith_some_shape (graphNames deps) _
            (fun n a b hh => dfsDetect_none_state fuel deps n a b hh)
            (fun n a cc b h1 h2 h3 hh => ih deps n a cc b h1 h2 h3 hh)
            (lookupDeps deps node) _ c2 st2 ?_ ?_
            (lookupDeps_subset deps node) hgo
          · intro x hx
            show x ∈ st.path ++ [node]
            rcases List.mem_cons.mp hx with h1 | h1
            · rw [h1]
              exact List.mem_append_right _ (List.mem_singleton.mpr rfl)
            · exact List.mem_append_left _ (hv x h1)
          · intro x hx
            rcases List.mem_append.mp hx with h1 | h1
            · exact hp x h1
            · rw [List.mem_singleton.mp h1]
              exact hn

theorem detectRoots_some_shape (fuel : Nat)
    (deps : List (String × List String)) :
    ∀ (roots : List String) (st : DetectState) (c : List String)
      (st' : DetectState),
      (∀ x ∈ st.visiting, x ∈ st.path) →
      (∀ x ∈ st.path, x ∈ graphNames deps) →
      (∀ r ∈ roots, r ∈ graphNames deps) →
      detectRoots fuel deps roots st = (some c, st') →
      ClosedPath (graphNames deps) c := by
  intro roots
  induction roots with
  | nil =>
    intro st c st' hv hp hr h
    simp only [detectRoots, Prod.mk.injEq] at h
    exact absurd h.1 (by simp)
  | cons n rest ih =>
    intro st c st' hv hp hr h
    rw [show detectRoots fuel deps (n :: rest) st =
      (if n ∈ st.visited then detectRoots fuel deps rest st
       else match dfsDetect fuel deps n st with
         | (some c, st1) => (some c, st1)
         | (none, st1) => detectRoots fuel deps rest st1) from rfl] at h
    by_cases hvd : n ∈ st.visited
    · rw [if_pos hvd] at h
      exact ih st c st' hv hp (fun x hx => hr x (List.mem_cons_of_mem n hx)) h
    · rw [if_neg hvd] at h
      rcases hd : dfsDetect fuel deps n st with ⟨r1, st1⟩
      rw [hd] at h
      cases r1 with
      | some c1 =>
        simp only [Prod.mk.injEq] at h
        injection h.1 with hc
        rw [← hc]
        exact dfsDetect_some_shape fuel deps n st c1 st1 hv hp
          (hr n (List.mem_cons_self n rest)) hd
      | none =>
        dsimp only at h
        obtain ⟨hvg, hpath⟩ := dfsDetect_none_state fuel deps n st st1 hd
        exact ih st1 c st' (by rw [hvg, hpath]; exact hv)
          (by rw [hpath]; exact hp)
          (fun x hx => hr x (List.mem_cons_of_mem n hx)) h

/-- C10: whenever cycle detection reports true, the returned path is
nonempty, has length at least two, is closed (its first and last
elements are the same service name), and mentions only names that are
keys or recorded dependencies of the graph; this holds for
`detectCircularDependency` on any dependency map and hence for
`HasCircularDependency` on any container. -/
theorem detect_reports_closed_path :
    (∀ (fuel : Nat) (deps : List (String × List String)) (p : List String),
       detectCircularDependency fuel deps = (true, p) →
       ClosedPath (graphNames deps) p) ∧
    (∀ (fuel : Nat) (s : Weave) (p : List String),
       HasCircularDependency fuel s = (true, p) →
       ClosedPath (graphNames (GetDependencyGraph s).Dependencies) p) := by
  have h1 : ∀ (fuel : Nat) (deps : List (String × List String))
      (p : List String), detectCircularDependency fuel deps = (true, p) →
      ClosedPath (graphNames deps) p := by
    intro fuel deps p h
    unfold detectCircularDependency at h
    rcases hroot : detectRoots fuel deps (deps.map Prod.fst)
        ⟨[], [], []⟩ with ⟨r, st'⟩
    rw [hroot] at h
    cases r with
    | none =>
      dsimp only at h
      simp only [Prod.mk.injEq] at h
      exact absurd h.1 (by simp)
    | some c =>
      dsimp only at h
      simp only [Prod.mk.injEq] at h
      rw [← h.2]
      exact detectRoots_some_shape fuel deps (deps.map Prod.fst)
        ⟨[], [], []⟩ c st' (by intro x hx; simp at hx)
        (by intro x hx; simp at hx)
        (keys_subset_graphNames deps) hroot
  exact ⟨h1, fun fuel s p h => h1 fuel (GetDependencyGraph s).Dependencies p h⟩

theorem detect_reports_closed_path_witness :
    ClosedPath (graphNames [("a", ["b"]), ("b", ["a"])]) ["a", "b", "a"] :=
  detect_reports_closed_path.1 10 [("a", ["b"]), ("b", ["a"])]
    ["a", "b", "a"] (by decide)

theorem mapGet_append {α : Type} (m1 m2 : List (String × α)) (k : String) :
    mapGet (m1 ++ m2) k =
      match mapGet m1 k with
      | some v => some v
      | none => mapGet m2 k := by
  induction m1 with
  | nil => rfl
  | cons p rest ih =>
    obtain ⟨k', v⟩ := p
    by_cases h : k' = k
    · show (if k' = k then some v else mapGet (rest ++ m2) k) = _
      rw [if_pos h]
      show _ = (match (if k' = k then some v else mapGet rest k) with
        | some v => some v
        | none => mapGet m2 k)
      rw [if_pos h]
    · show (if k' = k then some v else mapGet (rest ++ m2) k) = _
      rw [if_neg h, ih]
      show _ = (match (if k' = k then some v else mapGet rest k) with
        | some v => some v
        | none => mapGet m2 k)
      rw [if_neg h]

theorem countLookup_addDependent (acc : List (String × List String))
    (dep svc k x : String) :
    countLookup (addDependent acc dep svc) k x =
      countLookup acc k x + (if k = dep ∧ x = svc then 1 else 0) := by
  unfold addDependent
  by_cases hc : containsKey acc dep = true
  · rw [if_pos hc]
    unfold countLookup
    rw [mapGet_mapUpdate]
    by_cases hk : k = dep
    · rw [if_pos hk]
      obtain ⟨l, hl⟩ := Option.isSome_iff_exists.mp hc
      have hl' : mapGet acc k = some l := by rw [hk]; exact hl
      rw [hl']
      show List.count x (l ++ [svc]) = List.count x l + _
      rw [List.count_append]
      by_cases hx : x = svc
      · rw [if_pos ⟨hk, hx⟩, hx]
        simp
      · rw [if_neg (fun hh => hx hh.2)]
        have h0 : List.count x [svc] = 0 :=
          List.count_eq_zero.mpr (by simp [hx])
        rw [h0]
    · rw [if_neg hk, if_neg (fun hh => hk hh.1)]
      simp
  · rw [if_neg hc]
    unfold countLookup
    rw [mapGet_append]
    have hnone_d : mapGet acc dep = none := by
      revert hc
      unfold containsKey
      cases mapGet acc dep <;> simp
    by_cases hk : k = dep
    · have hnone : mapGet acc k = none := by rw [hk]; exact hnone_d
      rw [hnone]
      have h2 : mapGet [(dep, [svc])] k = some [svc] := by
        show (if dep = k then some [svc] else none) = some [svc]
        rw [if_pos hk.symm]
      rw [h2]
      show List.count x [svc] = List.count x [] + _
      by_cases hx : x = svc
      · rw [if_pos ⟨hk, hx⟩, hx]
        simp
      · rw [if_neg (fun hh => hx hh.2)]
        have h0 : List.count x [svc] = 0 :=
          List.count_eq_zero.mpr (by simp [hx])
        rw [h0]
        rfl
    · rw [if_neg (fun hh => hk hh.1)]
      have h2 : mapGet [(dep, [svc])] k = none := by
        show (if dep = k then some [svc] else none) = none
        rw [if_neg (fun hh => hk hh.symm)]
      rw [h2]
      cases hg : mapGet acc k <;> simp

theorem mapGet_mapValues {α β : Type} (m : List (String × α)) (g : α → β)
    (n : String) :
    mapGet (m.map (fun p => (p.1, g p.2))) n = (mapGet m n).map g := by
  induction m with
  | nil => rfl
  | cons p rest ih =>
    obtain ⟨k', v⟩ := p
    by_cases h : k' = n
    · show (if k' = n then some (g v) else _) = _
      rw [if_pos h]
      show _ = (if k' = n then some v else mapGet rest n).map g
      rw [if_pos h]
      rfl
    · show (if k' = n then some (g v) else
        mapGet (rest.map (fun p => (p.1, g p.2))) n) = _
      rw [if_neg h, ih]
      show _ = (if k' = n then some v else mapGet rest n).map g
      rw [if_neg h]

theorem map_fst_mapValues {α β : Type} (m : List (String × α)) (g : α → β) :
    (m.map (fun p => (p.1, g p.2))).map Prod.fst = m.map Prod.fst := by
  induction m with
  | nil => rfl
  | cons p rest ih =>
    show p.1 :: _ = p.1 :: _
    rw [ih]

theorem countLookup_foldDeps (svc k x : String) :
    ∀ (ds : List String) (acc : List (String × List String)),
      countLookup (ds.foldl (fun a dep => addDependent a dep svc) acc) k x =
        countLookup acc k x + (if x = svc then ds.count k else 0) := by
  intro ds
  induction ds with
  | nil =>
    intro acc
    by_cases hx : x = svc <;> simp [hx]
  | cons d rest ih =>
    intro acc
    show countLookup (rest.foldl _ (addDependent acc d svc)) k x = _
    rw [ih (addDependent acc d svc), countLookup_addDependent]
    by_cases hx : x = svc
    · rw [if_pos hx, if_pos hx, List.count_cons]
      by_cases hkd : k = d
      · rw [if_pos ⟨hkd, hx⟩]
        have hb : (d == k) = true := by simp [hkd]
        rw [hb, if_pos rfl]
        omega
      · rw [if_neg (fun hh => hkd hh.1)]
        have hb : (d == k) = false := by
          rw [beq_eq_false_iff_ne]
          exact fun hh => hkd hh.symm
        rw [hb, if_neg Bool.false_ne_true]
        omega
    · rw [if_neg hx, if_neg hx, if_neg (fun hh => hx hh.2)]

theorem countLookup_foldPairs (k x : String) :
    ∀ (ps : List (String × List String))
      (acc : List (String × List String)),
      countLookup (ps.foldl (fun acc2 p =>
        p.2.foldl (fun a dep => addDependent a dep p.1) acc2) acc) k x =
        countLookup acc k x +
          (ps.map (fun p => if x = p.1 then p.2.count k else 0)).sum := by
  intro ps
  induction ps with
  | nil => intro acc; simp
  | cons p rest ih =>
    intro acc
    show countLookup (rest.foldl _
      (p.2.foldl (fun a dep => addDependent a dep p.1) acc)) k x = _
    rw [ih, countLookup_foldDeps p.1 k x p.2 acc, List.map_cons,
      List.sum_cons]
    omega

theorem sum_indicator_nodup (k x : String) :
    ∀ (ps : List (String × List String)), (ps.map Prod.fst).Nodup →
      (ps.map (fun p => if x = p.1 then p.2.count k else 0)).sum =
        countLookup ps x k := by
  intro ps
  induction ps with
  | nil => intro h; rfl
  | cons p rest ih =>
    intro h
    rw [List.map_cons] at h
    have hhead : p.1 ∉ rest.map Prod.fst := (List.nodup_cons.mp h).1
    have htail : (rest.map Prod.fst).Nodup := (List.nodup_cons.mp h).2
    rw [List.map_cons, List.sum_cons]
    unfold countLookup
    by_cases hx : x = p.1
    · rw [if_pos hx]
      have hzero : (rest.map
          (fun p => if x = p.1 then p.2.count k else 0)).sum = 0 := by
        apply List.sum_eq_zero
        intro y hy
        obtain ⟨q, hq, hqy⟩ := List.mem_map.mp hy
        rw [← hqy]
        rw [if_neg]
        intro hc
        apply hhead
        rw [hx] at hc
        rw [hc]
        exact List.mem_map.mpr ⟨q, hq, rfl⟩
      rw [hzero]
      show p.2.count k + 0 =
        ((if p.1 = x then some p.2 else mapGet rest x).getD []).count k
      rw [if_pos hx.symm]
      simp
    · rw [if_neg hx]
      show 0 + _ = ((if p.1 = x then some p.2 else mapGet rest x).getD
        []).count k
      rw [if_neg (fun hh => hx hh.symm), Nat.zero_add]
      have := ih htail
      unfold countLookup at this
      exact this

theorem sortStrings_perm (l : List String) : (sortStrings l).Perm l :=
  List.perm_insertionSort _ l

theorem count_sortStrings (l : List String) (x : String) :
    (sortStrings l).count x = l.count x :=
  (sortStrings_perm l).count_eq x

theorem sortStrings_sorted (l : List String) :
    List.Sorted (fun a b => strLe a b = true) (sortStrings l) := by
  haveI h1 : IsTotal String (fun a b => strLe a b = true) := ⟨strLe_total⟩
  haveI h2 : IsTrans String (fun a b => strLe a b = true) :=
    ⟨fun _ _ _ => strLe_trans⟩
  exact List.sorted_insertionSort _ l

theorem mapGet_dependentsSort (D : List (String × List String)) :
    ∀ (m : List (String × List String)) (k : String),
      mapGet (m.map (fun p =>
        if containsKey D p.1 then (p.1, sortStrings p.2) else p)) k =
      (mapGet m k).map
        (fun l => if containsKey D k then sortStrings l else l) := by
  intro m
  induction m with
  | nil => intro k; rfl
  | cons p rest ih =>
    intro k
    obtain ⟨k', v⟩ := p
    by_cases hc : containsKey D k' = true
    · rw [List.map_cons, if_pos hc]
      by_cases hk : k' = k
      · show (if k' = k then some (sortStrings v) else _) = _
        rw [if_pos hk]
        show _ = (if k' = k then some v else mapGet rest k).map _
        rw [if_pos hk, ← hk]
        show some (sortStrings v) =
          some (if containsKey D k' then sortStrings v else v)
        rw [if_pos hc]
      · show (if k' = k then some (sortStrings v) else _) = _
        rw [if_neg hk, ih]
        show _ = (if k' = k then some v else mapGet rest k).map _
        rw [if_neg hk]
    · rw [List.map_cons, if_neg hc]
      by_cases hk : k' = k
      · show (if k' = k then some v else _) = _
        rw [if_pos hk]
        show _ = (if k' = k then some v else mapGet rest k).map _
        rw [if_pos hk, ← hk]
        show some v = some (if containsKey D k' then sortStrings v else v)
        rw [if_neg hc]
      · show (if k' = k then some v else _) = _
        rw [if_neg hk, ih]
        show _ = (if k' = k then some v else mapGet rest k).map _
        rw [if_neg hk]

theorem mapGet_of_mem_nodup {α : Type} {m : List (String × α)}
    (hnd : (m.map Prod.fst).Nodup) {p : String × α} (hp : p ∈ m) :
    mapGet m p.1 = some p.2 := by
  induction m with
  | nil => simp at hp
  | cons q rest ih =>
    rw [List.map_cons] at hnd
    have hhead : q.1 ∉ rest.map Prod.fst := (List.nodup_cons.mp hnd).1
    have htail := (List.nodup_cons.mp hnd).2
    rcases List.mem_cons.mp hp with h | h
    · rw [h]
      show (if q.1 = q.1 then some q.2 else mapGet rest q.1) = some q.2
      rw [if_pos rfl]
    · show (if q.1 = p.1 then some q.2 else mapGet rest p.1) = some p.2
      rw [if_neg (fun hc => hhead (by
        rw [hc]
        exact List.mem_map.mpr ⟨p, h, rfl⟩))]
      exact ih htail h

theorem containsKey_addDependent {acc : List (String × List String)}
    {dep svc q : String}
    (h : containsKey (addDependent acc dep svc) q = true) :
    containsKey acc q = true ∨ q = dep := by
  unfold addDependent at h
  by_cases hc : containsKey acc dep = true
  · rw [if_pos hc] at h
    unfold containsKey at h ⊢
    rw [mapGet_mapUpdate] at h
    by_cases hq : q = dep
    · exact Or.inr hq
    · rw [if_neg hq] at h
      exact Or.inl h
  · rw [if_neg hc] at h
    unfold containsKey at h ⊢
    rw [mapGet_append] at h
    cases hg : mapGet acc q with
    | some l => exact Or.inl rfl
    | none =>
      rw [hg] at h
      right
      by_contra hq
      have : mapGet [(dep, [svc])] q = none := by
        show (if dep = q then some [svc] else none) = none
        rw [if_neg (fun hc2 => hq hc2.symm)]
      rw [this] at h
      exact absurd h (by simp)

theorem containsKey_foldDeps {svc q : String} :
    ∀ (ds : List String) (acc : List (String × List String)),
      containsKey (ds.foldl (fun a dep => addDependent a dep svc) acc) q =
        true →
      containsKey acc q = true ∨ q ∈ ds := by
  intro ds
  induction ds with
  | nil => intro acc h; exact Or.inl h
  | cons d rest ih =>
    intro acc h
    rcases ih (addDependent acc d svc) h with h1 | h1
    · rcases containsKey_addDependent h1 with h2 | h2
      · exact Or.inl h2
      · exact Or.inr (by rw [h2]; exact List.mem_cons_self d rest)
    · exact Or.inr (List.mem_cons_of_mem d h1)

theorem containsKey_foldPairs {q : String} :
    ∀ (ps : List (String × List String))
      (acc : List (String × List String)),
      containsKey (ps.foldl (fun acc2 p =>
        p.2.foldl (fun a dep => addDependent a dep p.1) acc2) acc) q = true →
      containsKey acc q = true ∨ ∃ p ∈ ps, q ∈ p.2 := by
  intro ps
  induction ps with
  | nil => intro acc h; exact Or.inl h
  | cons p rest ih =>
    intro acc h
    rcases ih _ h with h1 | h1
    · rcases containsKey_foldDeps p.2 acc h1 with h2 | h2
      · exact Or.inl h2
      · exact Or.inr ⟨p, List.mem_cons_self p rest, h2⟩
    · obtain ⟨r, hr, hq⟩ := h1
      exact Or.inr ⟨r, List.mem_cons_of_mem p hr, hq⟩

theorem countLookup_sortMap (D F : List (String × List String))
    (M N : String) :
    countLookup (F.map (fun p =>
      if containsKey D p.1 then (p.1, sortStrings p.2) else p)) M N =
      countLookup F M N := by
  unfold countLookup
  rw [mapGet_dependentsSort]
  cases hg : mapGet F M with
  | none => rfl
  | some l =>
    show List.count N (if containsKey D M then sortStrings l else l) =
      List.count N l
    by_cases hc : containsKey D M = true
    · rw [if_pos hc]
      exact count_sortStrings l N
    · rw [if_neg hc]

/-- C6: for every container state with unique entry names whose recorded
dependencies all refer to registered names (true of all states reachable
through the API), `GetDependencyGraph()` returns forward and reverse
edge maps that are exact transposes of each other with multiplicity
(duplicate edges included), and every adjacency list in both maps is
sorted. -/
theorem dependency_graph_transpose_sorted (s : Weave)
    (hkeys : (s.entries.map Prod.fst).Nodup)
    (hclosed : depsClosed s) :
    (∀ N M : String,
      countLookup (GetDependencyGraph s).Dependencies N M =
        countLookup (GetDependencyGraph s).Dependents M N) ∧
    (∀ p ∈ (GetDependencyGraph s).Dependencies,
      List.Sorted (fun a b => strLe a b = true) p.2) ∧
    (∀ p ∈ (GetDependencyGraph s).Dependents,
      List.Sorted (fun a b => strLe a b = true) p.2) := by
  have hdeps0get : ∀ N, mapGet
      (s.entries.map (fun p => (p.1, p.2.dependsOn))) N =
      (mapGet s.entries N).map (fun e => e.dependsOn) :=
    fun N => mapGet_mapValues s.entries (fun e => e.dependsOn) N
  have hkeys0 : ((s.entries.map
      (fun p => (p.1, p.2.dependsOn))).map Prod.fst).Nodup := by
    rw [map_fst_mapValues]
    exact hkeys
  refine ⟨?_, ?_, ?_⟩
  · intro N M
    have hL : countLookup (GetDependencyGraph s).Dependencies N M =
        (((mapGet s.entries N).map (fun e => e.dependsOn)).getD
          []).count M := by
      show (((mapGet ((s.entries.map (fun p => (p.1, p.2.dependsOn))).map
        (fun p => (p.1, sortStrings p.2))) N).getD []).count M) = _
      rw [mapGet_mapValues _ sortStrings N, hdeps0get N]
      cases mapGet s.entries N with
      | none => rfl
      | some e => exact count_sortStrings _ M
    have hdd : countLookup
        ((s.entries.map (fun p => (p.1, p.2.dependsOn))).foldl
          (fun acc p =>
            p.2.foldl (fun acc2 dep => addDependent acc2 dep p.1) acc)
          (s.entries.map (fun p => (p.1, ([] : List String))))) M N =
        (((mapGet s.entries N).map (fun e => e.dependsOn)).getD
          []).count M := by
      rw [countLookup_foldPairs M N
        (s.entries.map (fun p => (p.1, p.2.dependsOn)))
        (s.entries.map (fun p => (p.1, ([] : List String))))]
      have hzero : countLookup
          (s.entries.map (fun p => (p.1, ([] : List String)))) M N = 0 := by
        unfold countLookup
        rw [mapGet_mapValues s.entries (fun _ => ([] : List String)) M]
        cases mapGet s.entries M <;> rfl
      rw [hzero, Nat.zero_add,
        sum_indicator_nodup M N
          (s.entries.map (fun p => (p.1, p.2.dependsOn))) hkeys0]
      unfold countLookup
      rw [hdeps0get N]
    have hR : countLookup (GetDependencyGraph s).Dependents M N =
        (((mapGet s.entries N).map (fun e => e.dependsOn)).getD
          []).count M := by
      show countLookup (((s.entries.map (fun p => (p.1, p.2.dependsOn))).foldl
        (fun acc p =>
          p.2.foldl (fun acc2 dep => addDependent acc2 dep p.1) acc)
        (s.entries.map (fun p => (p.1, ([] : List String))))).map
        (fun p =>
          if containsKey (s.entries.map (fun q => (q.1, q.2.dependsOn))) p.1
          then (p.1, sortStrings p.2) else p)) M N = _
      rw [countLookup_sortMap]
      exact hdd
    rw [hL, hR]
  · intro p hp
    obtain ⟨q, hq, hpq⟩ := List.mem_map.mp hp
    rw [← hpq]
    exact sortStrings_sorted q.2
  · intro p hp
    obtain ⟨q, hq, hpq⟩ := List.mem_map.mp hp
    have hqk : containsKey ((s.entries.map
        (fun p => (p.1, p.2.dependsOn))).foldl
        (fun acc p =>
          p.2.foldl (fun acc2 dep => addDependent acc2 dep p.1) acc)
        (s.entries.map (fun p => (p.1, ([] : List String))))) q.1 = true :=
      mapGet_isSome_of_mem_keys (List.mem_map.mpr ⟨q, hq, rfl⟩)
    have hc0 : containsKey (s.entries.map
        (fun q => (q.1, q.2.dependsOn))) q.1 = true := by
      rcases containsKey_foldPairs
          (s.entries.map (fun p => (p.1, p.2.dependsOn)))
          (s.entries.map (fun p => (p.1, ([] : List String)))) hqk with
        h1 | h1
      · unfold containsKey at h1 ⊢
        rw [mapGet_mapValues s.entries (fun e => e.dependsOn) q.1,
          isSome_optionMap]
        rw [mapGet_mapValues s.entries (fun _ => ([] : List String)) q.1,
          isSome_optionMap] at h1
        exact h1
      · obtain ⟨pr, hpr, hqpr⟩ := h1
        obtain ⟨r, hr, hrpr⟩ := List.mem_map.mp hpr
        have hget : mapGet s.entries r.1 = some r.2 :=
          mapGet_of_mem_nodup hkeys hr
        rw [← hrpr] at hqpr
        have hcl := hclosed r.1 r.2 hget q.1 hqpr
        unfold containsKey at hcl ⊢
        rw [mapGet_mapValues s.entries (fun e => e.dependsOn) q.1,
          isSome_optionMap]
        exact hcl
    rw [← hpq, if_pos hc0]
    exact sortStrings_sorted q.2

theorem exTwoCycles_closed : depsClosed exTwoCycles := by
  intro n e h d hd
  have h' : mapGet exTwoCycles.entries n = some e := h
  simp only [exTwoCycles, mkCycEntry, mapGet] at h'
  split_ifs at h' with h1 h2 h3 h4
  · injection h' with he
    rw [← he] at hd
    simp at hd
    rw [hd]
    decide
  · injection h' with he
    rw [← he] at hd
    simp at hd
    rcases hd with hd | hd <;> (rw [hd]; decide)
  · injection h' with he
    rw [← he] at hd
    simp at hd
    rw [hd]
    decide
  · injection h' with he
    rw [← he] at hd
    simp at hd
    rw [hd]
    decide

theorem dependency_graph_transpose_sorted_witness :
    countLookup (GetDependencyGraph exTwoCycles).Dependencies "b" "c" =
      countLookup (GetDependencyGraph exTwoCycles).Dependents "c" "b" ∧
    List.Sorted (fun a b => strLe a b = true) ["c", "d"] := by
  have h := dependency_graph_transpose_sorted exTwoCycles (by decide)
    exTwoCycles_closed
  exact ⟨h.1 "b" "c", h.2.1 ("b", ["c", "d"]) (by decide)⟩

theorem strLt_irrefl (a : String) : strLt a a = false := lexLt_irrefl a.data

theorem strLt_trans {a b c : String} (h1 : strLt a b = true)
    (h2 : strLt b c = true) : strLt a c = true := lexLt_trans h1 h2

theorem strLe_iff_not_lt {a b : String} :
    strLe a b = true ↔ strLt b a = false := by
  simp [strLe]

theorem strLt_asymm {a b : String} (h : strLt a b = true) :
    strLt b a = false := by
  by_contra hc
  rw [Bool.not_eq_false] at hc
  have h2 := strLt_trans h hc
  rw [strLt_irrefl] at h2
  exact Bool.false_ne_true h2

theorem strLe_of_lt {a b : String} (h : strLt a b = true) : strLe a b = true :=
  strLe_iff_not_lt.mpr (strLt_asymm h)

theorem strLe_refl (a : String) : strLe a a = true :=
  strLe_iff_not_lt.mpr (strLt_irrefl a)

theorem minIdxAux_spec (rest : List String) :
    ∀ (m : String) (mi i : Nat),
      (minIdxAux rest m mi i = mi ∧ ∀ x ∈ rest, strLe m x = true) ∨
      (∃ j, j < rest.length ∧ minIdxAux rest m mi i = i + j ∧
        strLt (rest.getD j "") m = true ∧
        ∀ x ∈ rest, strLe (rest.getD j "") x = true) := by
  induction rest with
  | nil => intro m mi i; exact Or.inl ⟨rfl, by simp⟩
  | cons y rest ih =>
    intro m mi i
    by_cases hy : strLt y m = true
    · rcases ih y i (i + 1) with ⟨he, hall⟩ | ⟨j, hj, he, hlt, hall⟩
      · refine Or.inr ⟨0, by simp, ?_, by simpa using hy, ?_⟩
        · rw [minIdxAux, if_pos hy, he]; omega
        · intro x hx
          rcases List.mem_cons.mp hx with rfl | hx
          · simpa using strLe_refl x
          · simpa using hall x hx
      · refine Or.inr ⟨j + 1, by simp only [List.length_cons]; omega,
          ?_, ?_, ?_⟩
        · rw [minIdxAux, if_pos hy, he]; omega
        · simpa using strLt_trans hlt hy
        · intro x hx
          rcases List.mem_cons.mp hx with rfl | hx
          · simpa using strLe_of_lt hlt
          · simpa using hall x hx
    · have hy' : strLe m y = true :=
        strLe_iff_not_lt.mpr (Bool.not_eq_true _ ▸ hy)
      rcases ih m mi (i + 1) with ⟨he, hall⟩ | ⟨j, hj, he, hlt, hall⟩
      · refine Or.inl ⟨?_, ?_⟩
        · rw [minIdxAux, if_neg hy, he]
        · intro x hx
          rcases List.mem_cons.mp hx with rfl | hx
          · exact hy'
          · exact hall x hx
      · refine Or.inr ⟨j + 1, by simp only [List.length_cons]; omega,
          ?_, ?_, ?_⟩
        · rw [minIdxAux, if_neg hy, he]; omega
        · simpa using hlt
        · intro x hx
          rcases List.mem_cons.mp hx with rfl | hx
          · exact strLe_trans (strLe_of_lt hlt) hy'
          · simpa using hall x hx

theorem minIdxOf_spec (l : List String) (h : l ≠ []) :
    minIdxOf l < l.length ∧
    ∀ x ∈ l, strLe (l.getD (minIdxOf l) "") x = true := by
  match l with
  | y :: rest =>
    have hdef : minIdxOf (y :: rest) = minIdxAux rest y 0 1 := rfl
    rcases minIdxAux_spec rest y 0 1 with ⟨he, hall⟩ | ⟨j, hj, he, hlt, hall⟩
    · rw [hdef, he]
      refine ⟨by simp, ?_⟩
      intro x hx
      rcases List.mem_cons.mp hx with rfl | hx
      · simpa using strLe_refl x
      · simpa using hall x hx
    · rw [hdef, he]
      have hgd : (y :: rest).getD (1 + j) "" = rest.getD j "" := by
        rw [Nat.add_comm]
        rfl
      rw [hgd]
      refine ⟨by simp; omega, ?_⟩
      intro x hx
      rcases List.mem_cons.mp hx with rfl | hx
      · exact strLe_of_lt hlt
      · exact hall x hx

theorem minIdxAux_no_lt (rest : List String) :
    ∀ (m : String) (mi i : Nat), (∀ x ∈ rest, strLt x m = false) →
      minIdxAux rest m mi i = mi := by
  induction rest with
  | nil => intro m mi i _; rfl
  | cons y rest ih =>
    intro m mi i hall
    have hy : strLt y m = false := hall y (List.mem_cons_self y rest)
    rw [minIdxAux, if_neg (by simp [hy]), ih m mi (i + 1)
      (fun x hx => hall x (List.mem_cons_of_mem y hx))]

theorem minIdxOf_eq_zero {y : String} {rest : List String}
    (h : ∀ x ∈ rest, strLe y x = true) : minIdxOf (y :: rest) = 0 :=
  minIdxAux_no_lt rest y 0 1 (fun x hx => strLe_iff_not_lt.mp (h x hx))

theorem normalizeCycle_eq_rotate (l : List String) :
    normalizeCycle l = l.rotate (minIdxOf l) := by
  by_cases h1 : l.length ≤ 1
  · rw [normalizeCycle, if_pos h1]
    match l, h1 with
    | [], _ => simp
    | [x], _ => simp [List.rotate_singleton]
  · rw [normalizeCycle, if_neg h1]
    have hne : l ≠ [] := by
      intro h
      rw [h] at h1
      simp at h1
    have hpos : 0 < l.length := List.length_pos.mpr hne
    apply List.ext_getElem
    · simp [List.length_rotate]
    · intro i hi1 hi2
      simp only [List.getElem_map, List.getElem_range, List.getElem_rotate]
      have hb : (minIdxOf l + i) % l.length < l.length := Nat.mod_lt _ hpos
      rw [List.getD_eq_getElem l "" hb]
      congr 1
      rw [Nat.add_comm]

theorem normalizeCycle_isRotated (l : List String) :
    l.IsRotated (normalizeCycle l) := by
  rw [normalizeCycle_eq_rotate]
  exact ⟨minIdxOf l, rfl⟩

theorem normalizeCycle_head (l : List String) (h : l ≠ []) :
    (normalizeCycle l).head? = some (l.getD (minIdxOf l) "") := by
  have hlt := (minIdxOf_spec l h).1
  rw [normalizeCycle_eq_rotate, List.head?_rotate hlt,
    List.getElem?_eq_getElem hlt, List.getD_eq_getElem l "" hlt]

theorem rotated_cons_eq_of_count_one {m : String} {t1 t2 : List String}
    (hc : (m :: t1).count m = 1)
    (hr : (m :: t1).IsRotated (m :: t2)) : t1 = t2 := by
  have hm : m ∉ t1 := by
    rw [List.count_cons_self] at hc
    exact List.count_eq_zero.mp (by omega)
  obtain ⟨k, hk, hrot⟩ := List.isRotated_iff_mod.mp hr
  rcases lt_or_eq_of_le hk with hlt | heq
  · rcases Nat.eq_zero_or_pos k with rfl | hkpos
    · rw [List.rotate_zero] at hrot
      injection hrot
    · exfalso
      have h0 : (m :: t1)[k]? = some m := by
        rw [← List.head?_rotate hlt, hrot]
        rfl
      have hk1 : k - 1 + 1 = k := by omega
      rw [← hk1, List.getElem?_cons_succ] at h0
      exact hm (List.getElem?_mem h0)
  · rw [heq, List.rotate_length] at hrot
    injection hrot

theorem closed_rotated_eq {n : String} {t1 t2 : List String}
    (h1 : n ∉ t1) (h2 : n ∉ t2)
    (hr : (n :: (t1 ++ [n])).IsRotated (n :: (t2 ++ [n]))) : t1 = t2 := by
  obtain ⟨k, hk, hrot⟩ := List.isRotated_iff_mod.mp hr
  rcases lt_or_eq_of_le hk with hlt | heq
  · by_cases hk0 : k = 0
    · rw [hk0, List.rotate_zero] at hrot
      injection hrot with _ h'
      simpa using h'
    · by_cases hklast : k = t1.length + 1
      · have hrw : (n :: (t1 ++ [n])).rotate k = n :: (n :: t1) := by
          rw [List.rotate_eq_drop_append_take hk, hklast]
          rw [List.drop_succ_cons, List.take_succ_cons]
          rw [List.drop_left' rfl, List.take_left' rfl]
          rfl
        rw [hrw] at hrot
        injection hrot with _ h'
        cases t2 with
        | nil =>
          simp at h'
          simp [h']
        | cons y t2' =>
          injection h' with hy _
          exact absurd (hy ▸ List.mem_cons_self y t2') h2
      · exfalso
        have h0 : (n :: (t1 ++ [n]))[k]? = some n := by
          rw [← List.head?_rotate hlt, hrot]
          rfl
        have hk1 : k - 1 + 1 = k := by omega
        have hkb : k - 1 < t1.length := by
          simp at hlt
          omega
        rw [← hk1, List.getElem?_cons_succ,
          List.getElem?_append_left hkb] at h0
        exact h1 (List.getElem?_mem h0)
  · rw [heq, List.rotate_length] at hrot
    injection hrot with _ h'
    simpa using h'

theorem shaped_count_closure {n : String} {t : List String} (h : n ∉ t) :
    (n :: (t ++ [n])).count n = 2 := by
  simp [List.count_cons_self, List.count_append, List.count_eq_zero.mpr h]

theorem shaped_count_other_le_one {n x : String} {t : List String}
    (hnd : (n :: t).Nodup) (hx : x ≠ n) :
    (n :: (t ++ [n])).count x ≤ 1 := by
  have hnt : t.Nodup := (List.nodup_cons.mp hnd).2
  rw [List.count_cons_of_ne hx, List.count_append]
  have h1 : t.count x ≤ 1 := List.nodup_iff_count_le_one.mp hnt x
  have h2 : List.count x [n] = 0 := by
    rw [List.count_eq_zero]
    simp [hx]
  omega

theorem normalizeCycle_count (l : List String) (x : String) :
    (normalizeCycle l).count x = l.count x :=
  ((normalizeCycle_isRotated l).perm.count_eq x).symm

theorem normalizeCycle_canon {c1 c2 : List String}
    (h1 : ShapedCycle c1) (h2 : ShapedCycle c2)
    (hr : (normalizeCycle c1).IsRotated (normalizeCycle c2)) :
    normalizeCycle c1 = normalizeCycle c2 := by
  obtain ⟨n1, t1, rfl, hnd1⟩ := h1
  obtain ⟨n2, t2, rfl, hnd2⟩ := h2
  have hn1t : n1 ∉ t1 := (List.nodup_cons.mp hnd1).1
  have hn2t : n2 ∉ t2 := (List.nodup_cons.mp hnd2).1
  have hne1 : n1 :: (t1 ++ [n1]) ≠ [] := by simp
  have hne2 : n2 :: (t2 ++ [n2]) ≠ [] := by simp
  have hr12 : (n1 :: (t1 ++ [n1])).IsRotated (n2 :: (t2 ++ [n2])) :=
    ((normalizeCycle_isRotated _).trans hr).trans
      (normalizeCycle_isRotated _).symm
  have hperm : (n1 :: (t1 ++ [n1])).Perm (n2 :: (t2 ++ [n2])) := hr12.perm
  obtain ⟨hlt1, hmin1⟩ := minIdxOf_spec _ hne1
  obtain ⟨hlt2, hmin2⟩ := minIdxOf_spec _ hne2
  have hm1mem : (n1 :: (t1 ++ [n1])).getD (minIdxOf (n1 :: (t1 ++ [n1]))) ""
      ∈ n1 :: (t1 ++ [n1]) := by
    rw [List.getD_eq_getElem _ "" hlt1]
    exact List.getElem_mem hlt1
  have hm2mem : (n2 :: (t2 ++ [n2])).getD (minIdxOf (n2 :: (t2 ++ [n2]))) ""
      ∈ n2 :: (t2 ++ [n2]) := by
    rw [List.getD_eq_getElem _ "" hlt2]
    exact List.getElem_mem hlt2
  have hm12 : (n1 :: (t1 ++ [n1])).getD (minIdxOf (n1 :: (t1 ++ [n1]))) "" =
      (n2 :: (t2 ++ [n2])).getD (minIdxOf (n2 :: (t2 ++ [n2]))) "" :=
    strLe_antisymm (hmin1 _ (hperm.mem_iff.mpr hm2mem))
      (hmin2 _ (hperm.mem_iff.mp hm1mem))
  by_cases hcase :
      (n1 :: (t1 ++ [n1])).getD (minIdxOf (n1 :: (t1 ++ [n1]))) "" = n1
  · have hcnt : (n2 :: (t2 ++ [n2])).count n1 = 2 := by
      have h := hperm.count_eq n1
      rw [← h]
      exact shaped_count_closure hn1t
    have hn12 : n1 = n2 := by
      by_contra hnne
      have hle := shaped_count_other_le_one hnd2 hnne
      omega
    have hcase2 :
        (n2 :: (t2 ++ [n2])).getD (minIdxOf (n2 :: (t2 ++ [n2]))) "" = n2 := by
      rw [← hm12, hcase, hn12]
    have h01 : minIdxOf (n1 :: (t1 ++ [n1])) = 0 := by
      apply minIdxOf_eq_zero
      intro x hx
      have hx1 : x ∈ n1 :: (t1 ++ [n1]) := List.mem_cons_of_mem _ hx
      have h := hmin1 x hx1
      rwa [hcase] at h
    have h02 : minIdxOf (n2 :: (t2 ++ [n2])) = 0 := by
      apply minIdxOf_eq_zero
      intro x hx
      have hx2 : x ∈ n2 :: (t2 ++ [n2]) := List.mem_cons_of_mem _ hx
      have h := hmin2 x hx2
      rwa [hcase2] at h
    rw [normalizeCycle_eq_rotate, normalizeCycle_eq_rotate, h01, h02,
      List.rotate_zero, List.rotate_zero]
    subst hn12
    rw [closed_rotated_eq hn1t hn2t hr12]
  · have hcnt1 : (n1 :: (t1 ++ [n1])).count
        ((n1 :: (t1 ++ [n1])).getD (minIdxOf (n1 :: (t1 ++ [n1]))) "") = 1 := by
      have hle := shaped_count_other_le_one hnd1 hcase
      have hge := List.one_le_count_iff.mpr hm1mem
      omega
    have hh1 := normalizeCycle_head _ hne1
    have hh2 := normalizeCycle_head _ hne2
    rw [← hm12] at hh2
    obtain ⟨u1, hu1⟩ : ∃ u, normalizeCycle (n1 :: (t1 ++ [n1])) =
        (n1 :: (t1 ++ [n1])).getD (minIdxOf (n1 :: (t1 ++ [n1]))) "" :: u := by
      cases hnc : normalizeCycle (n1 :: (t1 ++ [n1])) with
      | nil => rw [hnc] at hh1; simp at hh1
      | cons a u =>
        rw [hnc] at hh1
        simp only [List.head?_cons, Option.some.injEq] at hh1
        exact ⟨u, by rw [hh1]⟩
    obtain ⟨u2, hu2⟩ : ∃ u, normalizeCycle (n2 :: (t2 ++ [n2])) =
        (n1 :: (t1 ++ [n1])).getD (minIdxOf (n1 :: (t1 ++ [n1]))) "" :: u := by
      cases hnc : normalizeCycle (n2 :: (t2 ++ [n2])) with
      | nil => rw [hnc] at hh2; simp at hh2
      | cons a u =>
        rw [hnc] at hh2
        simp only [List.head?_cons, Option.some.injEq] at hh2
        exact ⟨u, by rw [hh2]⟩
    have hcn : ((n1 :: (t1 ++ [n1])).getD (minIdxOf (n1 :: (t1 ++ [n1]))) ""
        :: u1).count
        ((n1 :: (t1 ++ [n1])).getD (minIdxOf (n1 :: (t1 ++ [n1]))) "") = 1 := by
      rw [← hu1, normalizeCycle_count]
      exact hcnt1
    have hr' : ((n1 :: (t1 ++ [n1])).getD (minIdxOf (n1 :: (t1 ++ [n1]))) ""
        :: u1).IsRotated
        ((n1 :: (t1 ++ [n1])).getD (minIdxOf (n1 :: (t1 ++ [n1]))) "" :: u2) := by
      rw [← hu1, ← hu2]
      exact hr
    rw [hu1, hu2, rotated_cons_eq_of_count_one hcn hr']

theorem findGoWith_visiting
    (f : String → List String → List String → List String →
      List (List String) × List String × List String)
    (hf : ∀ d vd vg p, (f d vd vg p).2.2 = vg) :
    ∀ (ds : List String) (vd vg p : List String),
      (findGoWith f ds vd vg p).2.2 = vg := by
  intro ds
  induction ds with
  | nil => intro vd vg p; rfl
  | cons d rest ih =>
    intro vd vg p
    show (findGoWith f rest (f d vd vg p).2.1 (f d vd vg p).2.2 p).2.2 = vg
    rw [ih, hf]

theorem findAll_visiting : ∀ (fuel : Nat)
    (deps : List (String × List String)) (node : String)
    (vd vg path : List String),
    (findAllCyclesFromNode fuel deps node vd vg path).2.2 = vg := by
  intro fuel
  induction fuel with
  | zero => intro deps node vd vg path; rfl
  | succ fuel ih =>
    intro deps node vd vg path
    rw [findAllCyclesFromNode]
    by_cases h1 : node ∈ vg
    · rw [if_pos h1]
    · rw [if_neg h1]
      by_cases h2 : node ∈ vd
      · rw [if_pos h2]
      · rw [if_neg h2]
        show (findGoWith _ (lookupDeps deps node) vd (node :: vg)
          (path ++ [node])).2.2.erase node = vg
        rw [findGoWith_visiting _ (fun d a b p => ih deps d a b p),
          List.erase_cons_head]

theorem dropBefore_shape (path : List String) (node : String) :
    dropBefore path node = [] ∨
    ∃ rest, dropBefore path node = node :: rest ∧
      (node :: rest).Sublist path := by
  induction path with
  | nil => exact Or.inl rfl
  | cons x p ih =>
    by_cases hx : x = node
    · subst hx
      exact Or.inr ⟨p, by rw [dropBefore, if_pos rfl], List.Sublist.refl _⟩
    · rcases ih with h | ⟨rest, he, hsub⟩
      · exact Or.inl (by rw [dropBefore, if_neg hx, h])
      · exact Or.inr ⟨rest, by rw [dropBefore, if_neg hx, he],
          hsub.cons x⟩

theorem cycleFrom_shape {path : List String} (hnd : path.Nodup)
    (node : String) : ∀ c ∈ cycleFrom path node, ShapedCycle c := by
  intro c hc
  rcases dropBefore_shape path node with h | ⟨rest, he, hsub⟩
  · rw [cycleFrom, h] at hc
    simp at hc
  · rw [cycleFrom, he] at hc
    simp only [List.mem_singleton] at hc
    subst hc
    exact ⟨node, rest, by simp, hsub.nodup hnd⟩

theorem findGoWith_shaped
    (f : String → List String → List String → List String →
      List (List String) × List String × List String)
    (hV : ∀ d vd vg p, (f d vd vg p).2.2 = vg)
    (hS : ∀ d vd vg p, List.Nodup p → (∀ x ∈ p, x ∈ vg) →
      ∀ c ∈ (f d vd vg p).1, ShapedCycle c) :
    ∀ (ds vd vg p : List String), List.Nodup p → (∀ x ∈ p, x ∈ vg) →
      ∀ c ∈ (findGoWith f ds vd vg p).1, ShapedCycle c := by
  intro ds
  induction ds with
  | nil =>
    intro vd vg p _ _ c hc
    simp [findGoWith] at hc
  | cons d rest ih =>
    intro vd vg p hnd hsub c hc
    replace hc : c ∈ (f d vd vg p).1 ++
        (findGoWith f rest (f d vd vg p).2.1 (f d vd vg p).2.2 p).1 := hc
    rcases List.mem_append.mp hc with h | h
    · exact hS d vd vg p hnd hsub c h
    · refine ih (f d vd vg p).2.1 (f d vd vg p).2.2 p hnd ?_ c h
      rw [hV]
      exact hsub

theorem findAll_shaped : ∀ (fuel : Nat)
    (deps : List (String × List String)) (node : String)
    (vd vg path : List String), List.Nodup path → (∀ x ∈ path, x ∈ vg) →
    ∀ c ∈ (findAllCyclesFromNode fuel deps node vd vg path).1,
      ShapedCycle c := by
  intro fuel
  induction fuel with
  | zero =>
    intro deps node vd vg path _ _ c hc
    simp [findAllCyclesFromNode] at hc
  | succ fuel ih =>
    intro deps node vd vg path hnd hsub c hc
    rw [findAllCyclesFromNode] at hc
    by_cases h1 : node ∈ vg
    · rw [if_pos h1] at hc
      exact cycleFrom_shape hnd node c hc
    · rw [if_neg h1] at hc
      by_cases h2 : node ∈ vd
      · rw [if_pos h2] at hc
        simp at hc
      · rw [if_neg h2] at hc
        replace hc : c ∈ (findGoWith
            (fun d a b p => findAllCyclesFromNode fuel deps d a b p)
            (lookupDeps deps node) vd (node :: vg) (path ++ [node])).1 := hc
        have hnode : node ∉ path := fun h => h1 (hsub node h)
        refine findGoWith_shaped _
          (fun d a b p => findAll_visiting fuel deps d a b p)
          (fun d a b p hn hs => ih deps d a b p hn hs)
          (lookupDeps deps node) vd (node :: vg) (path ++ [node])
          ?_ ?_ c hc
        · rw [List.nodup_append]
          exact ⟨hnd, List.nodup_singleton node, by simp [hnode]⟩
        · intro x hx
          rcases List.mem_append.mp hx with h | h
          · exact List.mem_cons_of_mem _ (hsub x h)
          · simp only [List.mem_singleton] at h
            subst h
            exact List.mem_cons_self x _

theorem dedup_foldl_mem (l : List (List String)) :
    ∀ (acc : List (List String) × List String),
      ∀ c ∈ (l.foldl
        (fun (acc : List (List String) × List String) cycle =>
          if cycle.length ≤ 1 then acc
          else
            let normalized := normalizeCycle cycle
            let key := joinArrow normalized
            if key ∈ acc.2 then acc
            else (acc.1 ++ [normalized], key :: acc.2))
        acc).1,
      c ∈ acc.1 ∨ ∃ c0 ∈ l, 1 < c0.length ∧ c = normalizeCycle c0 := by
  induction l with
  | nil => intro acc c hc; exact Or.inl hc
  | cons x l ih =>
    intro acc c hc
    rw [List.foldl_cons] at hc
    rcases ih _ c hc with h | ⟨c0, hc0, hlen, he⟩
    · by_cases hx : x.length ≤ 1
      · simp only [if_pos hx] at h
        exact Or.inl h
      · by_cases hk : joinArrow (normalizeCycle x) ∈ acc.2
        · simp only [if_neg hx, if_pos hk] at h
          exact Or.inl h
        · simp only [if_neg hx, if_neg hk] at h
          rcases List.mem_append.mp h with h' | h'
          · exact Or.inl h'
          · simp only [List.mem_singleton] at h'
            exact Or.inr ⟨x, List.mem_cons_self x l, by omega, h'⟩
    · exact Or.inr ⟨c0, List.mem_cons_of_mem x hc0, hlen, he⟩

theorem dedup_foldl_nodup (l : List (List String)) :
    ∀ (acc : List (List String) × List String),
      acc.1.Nodup → (∀ c ∈ acc.1, joinArrow c ∈ acc.2) →
      (l.foldl
        (fun (acc : List (List String) × List String) cycle =>
          if cycle.length ≤ 1 then acc
          else
            let normalized := normalizeCycle cycle
            let key := joinArrow normalized
            if key ∈ acc.2 then acc
            else (acc.1 ++ [normalized], key :: acc.2))
        acc).1.Nodup := by
  induction l with
  | nil => intro acc h1 _; exact h1
  | cons x l ih =>
    intro acc h1 h2
    rw [List.foldl_cons]
    by_cases hx : x.length ≤ 1
    · simp only [if_pos hx]
      exact ih acc h1 h2
    · by_cases hk : joinArrow (normalizeCycle x) ∈ acc.2
      · simp only [if_neg hx, if_pos hk]
        exact ih acc h1 h2
      · simp only [if_neg hx, if_neg hk]
        refine ih _ ?_ ?_
        · rw [List.nodup_append]
          refine ⟨h1, List.nodup_singleton _, ?_⟩
          simp only [List.disjoint_singleton]
          intro hmem
          exact hk (h2 _ hmem)
        · intro c hcm
          rcases List.mem_append.mp hcm with h | h
          · exact List.mem_cons_of_mem _ (h2 c h)
          · simp only [List.mem_singleton] at h
            subst h
            exact List.mem_cons_self _ _

theorem deduplicateCycles_mem {cycles : List (List String)}
    {c : List String} (hc : c ∈ deduplicateCycles cycles) :
    ∃ c0 ∈ cycles, 1 < c0.length ∧ c = normalizeCycle c0 := by
  rcases dedup_foldl_mem cycles ([], []) c hc with h | h
  · simp at h
  · exact h

theorem deduplicateCycles_nodup (cycles : List (List String)) :
    (deduplicateCycles cycles).Nodup :=
  dedup_foldl_nodup cycles ([], []) List.nodup_nil (by simp)

theorem getAll_foldl_shaped (fuel : Nat)
    (deps : List (String × List String)) :
    ∀ (keys : List String) (acc : List (List String) × List String),
      (∀ c ∈ acc.1, ShapedCycle c) →
      ∀ c ∈ (keys.foldl
        (fun (acc : List (List String) × List String) node =>
          if node ∈ acc.2 then acc
          else
            let r := findAllCyclesFromNode fuel deps node [] [] []
            (acc.1 ++ r.1, node :: acc.2))
        acc).1, ShapedCycle c := by
  intro keys
  induction keys with
  | nil => intro acc hacc c hc; exact hacc c hc
  | cons k keys ih =>
    intro acc hacc c hc
    rw [List.foldl_cons] at hc
    refine ih _ ?_ c hc
    by_cases hk : k ∈ acc.2
    · simp only [if_pos hk]
      exact hacc
    · simp only [if_neg hk]
      intro c' hc'
      rcases List.mem_append.mp hc' with h | h
      · exact hacc c' h
      · exact findAll_shaped fuel deps k [] [] [] List.nodup_nil
          (by simp) c' h

set_option maxRecDepth 8000

/-- C3: Cycle normalization and deduplication.  Every cycle returned by
`GetAllCircularDependencies` begins at its lexicographically smallest
element (its head is `≤` every element of the cycle); the returned list
holds no duplicates and no two of its cycles are rotations of one
another (the three universal conjuncts range over every state and hence
over every Go map-iteration order, since in the model that order is the
entry-list order of the state); and on the concrete graph with the two
independent cycles a→b→c→a and b→d→b it returns at least two cycles,
under either direction of the entry-list order. -/
theorem getAll_cycles_normalized_rotation_distinct (fuel : Nat)
    (s : Weave) :
    (∀ c ∈ GetAllCircularDependencies fuel s,
      ∃ m, c.head? = some m ∧ ∀ x ∈ c, strLe m x = true) ∧
    (GetAllCircularDependencies fuel s).Nodup ∧
    (∀ c1 ∈ GetAllCircularDependencies fuel s,
      ∀ c2 ∈ GetAllCircularDependencies fuel s,
      c1.IsRotated c2 → c1 = c2) ∧
    (2 ≤ (GetAllCircularDependencies 16 exTwoCycles).length ∧
     2 ≤ (GetAllCircularDependencies 16 exTwoCyclesRev).length) := by
  have hchar : ∀ c ∈ GetAllCircularDependencies fuel s,
      ∃ c0, ShapedCycle c0 ∧ 1 < c0.length ∧ c = normalizeCycle c0 := by
    intro c hc
    replace hc : c ∈ deduplicateCycles
        (((GetDependencyGraph s).Dependencies.map Prod.fst).foldl
          (fun (acc : List (List String) × List String) node =>
            if node ∈ acc.2 then acc
            else
              let r := findAllCyclesFromNode fuel
                (GetDependencyGraph s).Dependencies node [] [] []
              (acc.1 ++ r.1, node :: acc.2))
          ([], [])).1 := hc
    obtain ⟨c0, hc0, hlen, he⟩ := deduplicateCycles_mem hc
    exact ⟨c0,
      getAll_foldl_shaped fuel (GetDependencyGraph s).Dependencies
        ((GetDependencyGraph s).Dependencies.map Prod.fst) ([], [])
        (by simp) c0 hc0, hlen, he⟩
  refine ⟨?_, ?_, ?_, ?_⟩
  · intro c hc
    obtain ⟨c0, hsh, hlen, rfl⟩ := hchar c hc
    have hne : c0 ≠ [] := by
      intro h
      rw [h] at hlen
      simp at hlen
    refine ⟨c0.getD (minIdxOf c0) "", normalizeCycle_head c0 hne, ?_⟩
    intro x hx
    exact (minIdxOf_spec c0 hne).2 x
      ((normalizeCycle_isRotated c0).mem_iff.mpr hx)
  · exact deduplicateCycles_nodup _
  · intro c1 h1 c2 h2 hrot
    obtain ⟨a1, hs1, _, rfl⟩ := hchar c1 h1
    obtain ⟨a2, hs2, _, rfl⟩ := hchar c2 h2
    exact normalizeCycle_canon hs1 hs2 hrot
  · exact ⟨by decide, by decide⟩
